import Mathlib

/-!
Verification development for the mhm2_proxy iterative contigging engine.

The C++ sources under `src/` are shallowly embedded below:
pure functions become Lean functions, stateful code threads explicit state,
machine integers become `Nat`/`Int` with explicit `% 2^w` where overflow
matters, and fallible code (paths that call `DIE`) returns `Option`.
Definitions whose C++ source lives in headers that are not part of the
repository snapshot (e.g. `kmer.hpp`, `packed_reads.hpp`, `kmer_dht.hpp`)
are modelled from the specification and are marked as such in their doc
comments.
-/

namespace MHM2

/-- Option-valued map over a list, short-circuiting at the first failure.
This is the embedding of a C++ loop whose body may call `DIE`. -/
def mapOpt {α β : Type} (f : α → Option β) : List α → Option (List β)
  | [] => some []
  | a :: l =>
    match f a with
    | none => none
    | some b => (mapOpt f l).map (b :: ·)

/-! ## Character-level utilities (src/src/utils.cpp) -/

/-- `comp_nucleotide` from src/src/utils.cpp (lines 121-143): complement of a
single nucleotide character.  The `default:` branch calls `DIE`, embedded as
`none`. -/
def compNucleotide (ch : Char) : Option Char :=
  if ch = 'A' then some 'T'
  else if ch = 'C' then some 'G'
  else if ch = 'G' then some 'C'
  else if ch = 'T' then some 'A'
  else if ch = 'N' then some 'N'
  else if ch = '0' then some '0'
  else if ch ∈ ['U', 'R', 'Y', 'K', 'M', 'S', 'W', 'B', 'D', 'H', 'V'] then some 'N'
  else none

/-- `revcomp` from src/src/utils.cpp (lines 94-119): reverse complement of a
DNA string (here a `List Char`).  Iterates from the last character to the
first, complementing each; an illegal character calls `DIE`, embedded as
`none`. -/
def revcompStr (seq : List Char) : Option (List Char) :=
  (mapOpt (fun ch =>
    if ch = 'A' then some 'T'
    else if ch = 'C' then some 'G'
    else if ch = 'G' then some 'C'
    else if ch = 'T' then some 'A'
    else if ch = 'N' then some 'N'
    else if ch ∈ ['U', 'R', 'Y', 'K', 'M', 'S', 'W', 'B', 'D', 'H', 'V'] then some 'N'
    else none) seq.reverse)

/-! ## Model of the C library parsing functions used by the sources

`strtol` / `strtod` are libc functions.  They are modelled here on the class
of inputs the repository feeds them: optional leading whitespace, an optional
sign, a run of decimal digits, and (for `strtod`) an optional fractional
part.  (Hexadecimal, exponent and inf/nan forms of `strtod` never occur on
the strings produced by this program and are not modelled; int64 overflow
saturation of `strtol` is likewise not modelled.) -/

def isCSpace (c : Char) : Bool :=
  c = ' ' || c = '\t' || c = '\n' || c = '\x0b' || c = '\x0c' || c = '\r'

def isDigitChar (c : Char) : Bool := '0' ≤ c && c ≤ '9'

/-- Consume a run of decimal digits, returning the accumulated value and the
rest of the input. -/
def parseDigits : List Char → Nat → Nat × List Char
  | [], acc => (acc, [])
  | c :: rest, acc =>
    if isDigitChar c then parseDigits rest (acc * 10 + (c.toNat - 48))
    else (acc, c :: rest)

/-- Model of `strtol(s, &endptr, 10)`: returns the parsed value together with
the unconsumed remainder (the `endptr` position).  If no digits can be
consumed the value is 0 and the remainder is the whole input, as in C. -/
def strtolE (s : List Char) : Int × List Char :=
  let t := s.dropWhile isCSpace
  match t with
  | '-' :: rest =>
    if rest.head?.any isDigitChar then
      let (v, r) := parseDigits rest 0
      (-(v : Int), r)
    else (0, s)
  | '+' :: rest =>
    if rest.head?.any isDigitChar then
      let (v, r) := parseDigits rest 0
      ((v : Int), r)
    else (0, s)
  | _ =>
    if t.head?.any isDigitChar then
      let (v, r) := parseDigits t 0
      ((v : Int), r)
    else (0, s)

/-- Model of `strtol(s, nullptr, 10)`: just the value. -/
def strtol (s : List Char) : Int := (strtolE s).1

/-- Model of `strtod(s, NULL)` on fixed-notation decimal inputs: optional
whitespace, optional sign, digits, optional '.' followed by digits.  Returns
an exact rational. -/
def strtod (s : List Char) : ℚ :=
  let t := s.dropWhile isCSpace
  let core : List Char → ℚ := fun u =>
    let (ip, r) := parseDigits u 0
    match r with
    | '.' :: r2 =>
      let (fp, r3) := parseDigits r2 0
      let nfrac := r2.length - r3.length
      (ip : ℚ) + (fp : ℚ) / ((10 : ℚ) ^ nfrac)
    | _ => (ip : ℚ)
  match t with
  | '-' :: rest => -(core rest)
  | '+' :: rest => core rest
  | _ => core t

/-! ## Packed reads (src/src/packed_reads.cpp)

A read is packed one byte per base: the low three bits encode the base
(A=0, C=1, G=2, T=3, N=4), the high five bits the clamped quality.
Quality characters are modelled by their `Nat` code points. -/

/-- The base-encoding switch of the `PackedRead` constructor
(src/src/packed_reads.cpp lines 88-107).  The `default:` branch calls
`DIE`, embedded as `none`. -/
def packBase (c : Char) : Option Nat :=
  if c = 'A' then some 0
  else if c = 'C' then some 1
  else if c = 'G' then some 2
  else if c = 'T' then some 3
  else if c = 'N' then some 4
  else if c ∈ ['U', 'R', 'Y', 'K', 'M', 'S', 'W', 'B', 'D', 'H', 'V'] then some 4
  else none

/-- The eleven IUPAC ambiguity characters accepted by the constructor in
addition to A,C,G,T,N. -/
def iupacChars : List Char := ['U', 'R', 'Y', 'K', 'M', 'S', 'W', 'B', 'D', 'H', 'V']

/-- The full set of sequence characters the constructor accepts without
calling `DIE`. -/
def acceptedSeqChars : List Char :=
  ['A', 'C', 'G', 'T', 'N', 'U', 'R', 'Y', 'K', 'M', 'S', 'W', 'B', 'D', 'H', 'V']

/-- One packed byte (src/src/packed_reads.cpp line 108):
`bytes[i] |= ((unsigned char)std::min(quals[i] - qual_offset, 31) << 3)`.
The subtraction and `min` happen in `int`; the cast to `unsigned char`
reduces mod 256; the final store into `bytes[i]` (an `unsigned char`)
truncates mod 256 again. -/
def packByte (code : Nat) (q : Nat) (qualOffset : Nat) : Nat :=
  let m : Int := min ((q : Int) - (qualOffset : Int)) 31
  let u : Nat := (m % 256).toNat
  (code ||| (u <<< 3)) % 256

/-- The id computation of the `PackedRead` constructor
(src/src/packed_reads.cpp lines 76-77):
`read_id = strtol(id_str.c_str() + 1, nullptr, 10) + 1;`
`if (id_str[id_str.length() - 1] == '1') read_id *= -1;` -/
def mkReadId (idStr : List Char) : Int :=
  let v : Int := strtol (idStr.drop 1) + 1
  if idStr.getLast? = some '1' then -v else v

/-- Shallow embedding of a `PackedRead` (packed_reads.hpp / packed_reads.cpp):
a signed 64-bit id, a `uint16_t` length and the packed byte array. -/
structure PackedRead where
  read_id : Int
  read_len : Nat
  bytes : List Nat
  deriving DecidableEq, Repr

/-- The `PackedRead` constructor (src/src/packed_reads.cpp lines 75-111).
`quals` must be at least as long as `seq` in C++ (shorter would index out of
bounds); the embedding zips the two lists.  `read_len` is stored through a
`uint16_t` cast, hence `% 65536`.  Returns `none` exactly when the byte loop
hits the `DIE` branch, i.e. when some sequence character is illegal. -/
def mkPackedRead (idStr : List Char) (seq : List Char) (quals : List Nat)
    (qualOffset : Nat) : Option PackedRead :=
  (mapOpt (fun cq =>
      (packBase cq.1).map fun code => packByte code cq.2 qualOffset) (seq.zip quals)).map
    fun bs =>
      { read_id := mkReadId idStr
        read_len := seq.length % 65536
        bytes := bs }

/-- Modelled from the spec: the `nucleotide_map` decode table lives in
`packed_reads.hpp`, which is not part of the repository snapshot.  Per the
spec data model, "three bits encode the base (A=0,C=1,G=2,T=3,N=4)".
Indices 5-7 are unreachable from bytes produced by the constructor; they are
mapped to 'N' arbitrarily. -/
def nucleotideMap (n : Nat) : Char :=
  if n = 0 then 'A'
  else if n = 1 then 'C'
  else if n = 2 then 'G'
  else if n = 3 then 'T'
  else 'N'

/-- The pair-membership character used by `PackedRead::unpack` and
`PackedRead::get_str_id` (src/src/packed_reads.cpp lines 151, 166):
`char pair_id = (read_id < 0 ? '1' : '2');` -/
def pairIdChar (read_id : Int) : Char := if read_id < 0 then '1' else '2'

/-- The sequence part of `PackedRead::unpack`
(src/src/packed_reads.cpp lines 153-156): for `i < read_len`,
`seq[i] = nucleotide_map[bytes[i] & 7]`. -/
def PackedRead.unpackSeq (pr : PackedRead) : List Char :=
  (pr.bytes.take pr.read_len).map fun b => nucleotideMap (b % 8)

/-- The quality part of `PackedRead::unpack`
(src/src/packed_reads.cpp line 157): `quals[i] = qual_offset + (bytes[i] >> 3)`. -/
def PackedRead.unpackQuals (pr : PackedRead) (qualOffset : Nat) : List Nat :=
  (pr.bytes.take pr.read_len).map fun b => qualOffset + b / 8

/-- The id string produced by `PackedRead::unpack`
(src/src/packed_reads.cpp line 152):
`read_id_str = "@r" + to_string(labs(read_id)) + '/' + pair_id`. -/
def PackedRead.unpackIdStr (pr : PackedRead) : List Char :=
  '@' :: 'r' :: (toString pr.read_id.natAbs).toList ++ ['/', pairIdChar pr.read_id]

end MHM2

namespace MHM2

/-! ## K-mers

Modelled from the spec: the `Kmer<MAX_K>` class lives in `kmer.hpp`, which is
not part of the repository snapshot.  Per the spec data model, a k-mer is a
fixed-length DNA word over the alphabet A,C,G,T packed two bits per base
(A=0, C=1, G=2, T=3), with reverse complement, single-base shifts
(`forward_base` / `backward_base`), `front`/`back` accessors, and operator<
comparing the packed representations, which (most-significant base first)
is lexicographic comparison of the base sequences. -/

inductive Base : Type
  | A | C | G | T
  deriving DecidableEq, Repr, Fintype

/-- The 2-bit packing of a base. -/
def Base.code : Base → Nat
  | .A => 0
  | .C => 1
  | .G => 2
  | .T => 3

/-- Watson-Crick complement of a base. -/
def Base.comp : Base → Base
  | .A => .T
  | .C => .G
  | .G => .C
  | .T => .A

/-- A k-mer as its unpacked base sequence (length k). -/
abbrev Kmer := List Base

/-- Modelled from the spec: reverse complement of a k-mer. -/
def Kmer.revcomp (km : Kmer) : Kmer := (km.map Base.comp).reverse

/-- Modelled from the spec: `Kmer::operator<`, lexicographic comparison of the
2-bit packed representations. -/
def Kmer.lt : Kmer → Kmer → Bool
  | [], [] => false
  | [], _ :: _ => true
  | _ :: _, [] => false
  | x :: xs, y :: ys =>
    decide (x.code < y.code) || (decide (x.code = y.code) && Kmer.lt xs ys)

/-- Modelled from the spec (glossary): the canonical k-mer is the
lexicographically smaller of a k-mer and its reverse complement, i.e.
`min(kmer, revcomp(kmer))`. -/
def canonicalKmer (km : Kmer) : Kmer :=
  if Kmer.lt km.revcomp km then km.revcomp else km

/-! ## Read shuffler key computation (src/src/shuffle_reads.cpp) -/

/-- The key transformation applied to each contig k-mer before it is sent to
the k-mer to contig-id map, from `compute_kmer_to_cid_map`
(src/src/shuffle_reads.cpp lines 104-107):
`auto kmer_rc = kmer.revcomp(); if (kmer < kmer_rc) kmer = kmer_rc;`
(the stored 64-bit key `kmer.get_longs()[0]` is the packed form of the
result, injective for the fixed SHUFFLE_KMER_LEN < 32). -/
def ctgShuffleKey (km : Kmer) : Kmer :=
  if Kmer.lt km km.revcomp then km.revcomp else km

/-- The key transformation applied to each read k-mer before the lookup RPC,
from `compute_cid_to_reads_map` (src/src/shuffle_reads.cpp lines 188-192):
`auto kmer_rc = kmer.revcomp(); if (kmer < kmer_rc) kmer = kmer_rc;` -/
def readShuffleKey (km : Kmer) : Kmer :=
  if Kmer.lt km km.revcomp then km.revcomp else km

/-! ## Contig id assignment after traversal (src/src/dbjg_traversal.cpp)

`traverse_debruijn_graph` (lines 586-591) assigns round ids:
`reduce_prefix(num_ctgs, op_fast_add)` yields the inclusive prefix sum of the
per-rank contig counts; each rank then numbers its contigs consecutively from
`my_prefix - num_ctgs`. -/

/-- The ids emitted by rank `r` given the per-rank contig counts: the block of
`counts[r]` consecutive ids starting at
`(inclusive prefix sum through r) - counts[r]`. -/
def roundIds (counts : List Nat) (r : Nat) : List Nat :=
  let numCtgs := counts.getD r 0
  let myPrefix := (counts.take (r + 1)).sum
  (List.range numCtgs).map (· + (myPrefix - numCtgs))

/-- The ids emitted by all ranks, in rank order. -/
def allRoundIds (counts : List Nat) : List Nat :=
  (List.range counts.length).flatMap (roundIds counts)

end MHM2

namespace MHM2

/-! ## Uutig fragments (src/src/dbjg_traversal.cpp)

`FragElem` records are process-local but addressable remotely through
`upcxx::global_ptr`.  Per the spec design notes a global pointer is a
(process id, local index) pair; `nullptr` is modelled as `none`. -/

/-- A non-null `global_ptr<FragElem>`: the owning rank (`.where()` in upcxx)
and a local index. -/
structure GPtr where
  rank : Nat
  idx : Nat
  deriving DecidableEq, Repr

/-- The `FragElem` struct (src/src/dbjg_traversal.cpp lines 73-90).  The
variable-length sequence, which C++ stores behind a separate `global_ptr<char>`
of `frag_len + 1` bytes, is inlined as a list of characters. -/
structure FragElem where
  left_gptr : Option GPtr
  right_gptr : Option GPtr
  left_is_rc : Bool
  right_is_rc : Bool
  frag_seq : List Char
  frag_len : Nat
  sum_depths : Int
  visited : Bool
  deriving DecidableEq, Repr

/-- The distributed arena of fragments: an association list from global
pointer to record.  `rget` of a pointer that is not in the arena is undefined
behaviour, embedded as `none`. -/
abbrev Heap : Type := List (GPtr × FragElem)

def hlookup : Heap → GPtr → Option FragElem
  | [], _ => none
  | e :: es, p => if e.1 = p then some e.2 else hlookup es p

def hupdate (heap : Heap) (p : GPtr) (fe : FragElem) : Heap :=
  List.map (fun e => if e.1 = p then (p, fe) else e) heap

/-- The keys of the arena. -/
def hkeys (heap : Heap) : List GPtr := List.map Prod.fst heap

/-- Walk direction (src/src/dbjg_traversal.cpp line 67). -/
inductive Dirn : Type
  | LEFT | RIGHT | NONE
  deriving DecidableEq, Repr

/-- `is_overlap` from src/src/dbjg_traversal.cpp lines 348-350:
`left_seq.compare(left_seq.length() - overlap_len, overlap_len, right_seq, 0, overlap_len) == 0`,
i.e. the last `overlap_len` characters of `left_seq` equal the first
`overlap_len` characters of `right_seq` (string compare is unequal when the
available lengths differ). -/
def isOverlap (left right : List Char) (olen : Nat) : Bool :=
  decide ((left.drop (left.length - olen)).take olen = right.take olen)

/-- `set_link_status` from src/src/dbjg_traversal.cpp lines 361-392.  Takes
the direction, the (in-out) neighbor pointer and rc flag, this fragment's
sequence and the k-mer length; returns the updated neighbor pointer and rc
flag together with the increments of the `num_overlaps`, `num_overlaps_rc`
and `num_non_recip` counters.  `none` embeds undefined behaviour (rget of a
dangling pointer) or a `DIE` inside `revcomp`. -/
def setLinkStatus (heap : Heap) (dirn : Dirn) (nbGptr : Option GPtr) (isRc : Bool)
    (uutig : List Char) (kmerLen : Nat) :
    Option (Option GPtr × Bool × Nat × Nat × Nat) :=
  match nbGptr with
  | none => some (none, isRc, 0, 0, 0)
  | some nb =>
    match hlookup heap nb with
    | none => none
    | some nbElem =>
      let nbSeq := nbElem.frag_seq
      let s1 := if dirn = Dirn.LEFT then nbSeq else uutig
      let s2 := if dirn = Dirn.LEFT then uutig else nbSeq
      if isOverlap s1 s2 (kmerLen - 1) then
        if (if dirn = Dirn.LEFT then nbElem.right_gptr else nbElem.left_gptr) = some nb then
          some (none, isRc, 0, 0, 1)
        else
          some (some nb, isRc, 1, 0, 0)
      else
        match revcompStr nbSeq with
        | none => none
        | some nbSeqRc =>
          let t1 := if dirn = Dirn.LEFT then nbSeqRc else uutig
          let t2 := if dirn = Dirn.LEFT then uutig else nbSeqRc
          if isOverlap t1 t2 (kmerLen - 1) then
            if (if dirn = Dirn.LEFT then nbElem.left_gptr else nbElem.right_gptr) = some nb then
              some (none, isRc, 0, 0, 1)
            else
              some (some nb, true, 0, 1, 0)
          else
            some (some nb, isRc, 0, 0, 0)

/-- The per-fragment body of `clean_frag_links`
(src/src/dbjg_traversal.cpp lines 401-421): skip short fragments, clear both
links when they are equal, otherwise run `set_link_status` on the left link
and then on the right link (the two field updates land on the fragment record
in order, as the C++ in-out reference arguments do). -/
def cleanFragLinksStep (kmerLen : Nat) (heap : Heap) (p : GPtr) : Option Heap :=
  match hlookup heap p with
  | none => none
  | some fe =>
    if fe.frag_len < kmerLen then some heap
    else
      let uutig := fe.frag_seq
      if fe.left_gptr ≠ none ∧ fe.left_gptr = fe.right_gptr then
        some (hupdate heap p { fe with left_gptr := none, right_gptr := none })
      else
        match setLinkStatus heap Dirn.LEFT fe.left_gptr fe.left_is_rc uutig kmerLen with
        | none => none
        | some (nl, lrc, _, _, _) =>
          let heap1 := hupdate heap p { fe with left_gptr := nl, left_is_rc := lrc }
          match hlookup heap1 p with
          | none => none
          | some fe1 =>
            match setLinkStatus heap1 Dirn.RIGHT fe1.right_gptr fe1.right_is_rc uutig kmerLen with
            | none => none
            | some (nr, rrc, _, _, _) =>
              some (hupdate heap1 p { fe1 with right_gptr := nr, right_is_rc := rrc })

/-- `clean_frag_links` (src/src/dbjg_traversal.cpp lines 394-433) over this
rank's fragment list (statistics reductions omitted). -/
def cleanFragLinks (kmerLen : Nat) (heap : Heap) : List GPtr → Option Heap
  | [] => some heap
  | p :: ps =>
    match cleanFragLinksStep kmerLen heap p with
    | none => none
    | some heap1 => cleanFragLinks kmerLen heap1 ps

end MHM2

namespace MHM2

/-- `get_other_side_gptr` from src/src/dbjg_traversal.cpp lines 435-438. -/
def getOtherSideGptr (fe : FragElem) (p : GPtr) : Option GPtr :=
  if fe.left_gptr = some p then fe.right_gptr else fe.left_gptr

/-- The state returned by a fragment-chain walk: the `bool` result of
`walk_frags_dirn` plus the in-out reference parameters
(`uutig`, `depths`, `walk_steps`, `num_repeats`, `my_frag_elems_visited`). -/
structure WalkResult where
  walk_ok : Bool
  uutig : List Char
  depths : Int
  walk_steps : Int
  num_repeats : Int
  localVisited : List GPtr
  deriving DecidableEq, Repr

/-- The depth accumulation of `walk_frags_dirn`
(src/src/dbjg_traversal.cpp line 506):
`depths += (next_frag_elem.sum_depths * (1.0 - (kmer_len - 1) / next_frag_elem.frag_len));`
`kmer_len - 1` and `frag_len` are both unsigned, so `(kmer_len - 1) / frag_len`
is INTEGER division, and only its quotient is subtracted from 1.0.  The double
arithmetic is exact on these integer values (they are far below 2^53), and the
conversion back to the int64 `depths` is exact as well, so the contribution is
the integer `sum_depths * (1 - (kmer_len - 1) / frag_len)`. -/
def depthContrib (kmerLen : Nat) (sumDepths : Int) (fragLen : Nat) : Int :=
  sumDepths * (1 - (((kmerLen - 1) / fragLen : Nat) : Int))

/-- Written from the spec's words, for comparison with `depthContrib`: the
spec prescribes accumulating the neighbor's depth weighted by the REAL-valued
`1 - (k-1)/frag_len`. -/
def specDepthContrib (kmerLen : Nat) (sumDepths : Int) (fragLen : Nat) : ℚ :=
  (sumDepths : ℚ) * (1 - ((kmerLen - 1 : Nat) : ℚ) / (fragLen : ℚ))

/-- The average depth of the contig emitted by `connect_frags`
(src/src/dbjg_traversal.cpp line 546):
`(double)depths / (uutig.length() - kmer_len + 2)`. -/
def contigAvgDepth (depths : Int) (uutigLen kmerLen : Nat) : ℚ :=
  (depths : ℚ) / ((uutigLen - kmerLen + 2 : Nat) : ℚ)

/-- Number of arena keys not yet in the walk's `visited` map: the termination
measure of the fragment-chain walk. -/
def unvisitedCount (heap : Heap) (visited : List GPtr) : Nat :=
  ((hkeys heap).filter (fun k => decide (k ∉ visited))).length

/-- The main loop of `walk_frags_dirn` (src/src/dbjg_traversal.cpp lines
452-517).  `none` embeds the `DIE` branches ("should not be already visited",
"No overlap", "No valid overlap") and undefined behaviour (remote read through
a dangling pointer).  Termination: every iteration that recurses marks a
previously unvisited arena key as visited. -/
def walkLoop (heap : Heap) (rankMe kmerLen : Nat) (nxOpt : Option GPtr) (prevGptr : GPtr)
    (dirn : Dirn) (visited : List GPtr) (uutig : List Char) (depths : Int)
    (steps : Int) (reps : Int) (lv : List GPtr) : Option WalkResult :=
  match nxOpt with
  | none => some ⟨true, uutig, depths, steps, reps, lv⟩
  | some nx =>
    if nx.rank > rankMe then some ⟨false, uutig, depths, steps, reps, lv⟩
    else if hvis : nx ∈ visited then some ⟨true, uutig, depths, steps, reps + 1, lv⟩
    else
      match hlk : hlookup heap nx with
      | none => none
      | some ne =>
        if nx.rank = rankMe ∧ ne.visited then none
        else
          let lv' := if nx.rank = rankMe then lv ++ [nx] else lv
          match revcompStr ne.frag_seq with
          | none => none
          | some nseqRc =>
            let nseq := ne.frag_seq
            let dirn' :=
              if dirn = Dirn.NONE then
                if isOverlap uutig nseq (kmerLen - 1) then Dirn.RIGHT
                else if isOverlap nseq uutig (kmerLen - 1) then Dirn.LEFT
                else if isOverlap uutig nseqRc (kmerLen - 1) then Dirn.RIGHT
                else if isOverlap nseqRc uutig (kmerLen - 1) then Dirn.LEFT
                else Dirn.NONE
              else dirn
            if dirn' = Dirn.NONE then none
            else
              let uutigOpt : Option (List Char) :=
                if dirn' = Dirn.LEFT then
                  let slen := nseq.length + 1 - kmerLen
                  if isOverlap nseq uutig (kmerLen - 1) then some (nseq.take slen ++ uutig)
                  else if isOverlap nseqRc uutig (kmerLen - 1) then some (nseqRc.take slen ++ uutig)
                  else none
                else
                  if isOverlap uutig nseq (kmerLen - 1) then some (uutig ++ nseq.drop (kmerLen - 1))
                  else if isOverlap uutig nseqRc (kmerLen - 1) then some (uutig ++ nseqRc.drop (kmerLen - 1))
                  else none
              match uutigOpt with
              | none => none
              | some uutig' =>
                walkLoop heap rankMe kmerLen (getOtherSideGptr ne prevGptr) nx dirn'
                  (nx :: visited) uutig'
                  (depths + depthContrib kmerLen ne.sum_depths ne.frag_len)
                  (steps + 1) reps lv'
termination_by unvisitedCount heap visited
decreasing_by
  have hmem : nx ∈ hkeys heap := by
    have haux : ∀ (h : Heap), hlookup h nx = some ne → nx ∈ hkeys h := by
      intro h
      induction h with
      | nil => intro hh; simp [hlookup] at hh
      | cons e es ih =>
        intro hh
        by_cases he : e.1 = nx
        · exact List.mem_map.mpr ⟨e, List.mem_cons_self e es, he⟩
        · rw [hlookup, if_neg he] at hh
          exact List.mem_cons_of_mem _ (ih hh)
    exact haux heap hlk
  have hmono : ∀ (l : List GPtr) (p1 p2 : GPtr → Bool), (∀ a, p1 a = true → p2 a = true) →
      (l.filter p1).length ≤ (l.filter p2).length := by
    intro l p1 p2 himp
    induction l with
    | nil => simp
    | cons y l ih =>
      rw [List.filter_cons, List.filter_cons]
      cases hy1 : p1 y with
      | true =>
        rw [himp y hy1]
        simpa using ih
      | false =>
        cases hy2 : p2 y with
        | true =>
          rw [if_neg (by simp), if_pos (by simp), List.length_cons]
          exact Nat.le_succ_of_le ih
        | false =>
          rw [if_neg (by simp), if_neg (by simp)]
          exact ih
  have hmain : ∀ (l : List GPtr), nx ∈ l →
      (l.filter fun k => decide (k ∉ nx :: visited)).length <
        (l.filter fun k => decide (k ∉ visited)).length := by
    intro l hl
    induction l with
    | nil => cases hl
    | cons y l ih =>
      rw [List.filter_cons, List.filter_cons]
      by_cases hyx : y = nx
      · subst hyx
        rw [if_neg (by simp), if_pos (by simpa using hvis)]
        have := hmono l (fun k => decide (k ∉ y :: visited)) (fun k => decide (k ∉ visited))
          (fun a ha => by
            simp only [decide_eq_true_eq] at ha ⊢
            exact fun hmem2 => ha (List.mem_cons_of_mem y hmem2))
        simpa using Nat.lt_of_le_of_lt this (Nat.lt_succ_self _)
      · rcases List.mem_cons.mp hl with h | h
        · exact absurd h.symm hyx
        · have hsame : (decide (y ∉ nx :: visited)) = (decide (y ∉ visited)) := by
            simp only [List.mem_cons, decide_eq_decide]
            constructor
            · intro hy hmem2; exact hy (Or.inr hmem2)
            · intro hy hmem2
              rcases hmem2 with h2 | h2
              · exact hyx h2
              · exact hy h2
          rw [hsame]
          cases hkeep : decide (y ∉ visited) with
          | true => simpa using ih h
          | false => simpa using ih h
  simpa [unvisitedCount] using hmain (hkeys heap) hmem

/-- `walk_frags_dirn` (src/src/dbjg_traversal.cpp lines 440-518): returns
immediately when the starting neighbor pointer is null, otherwise runs the
chain walk with the visited map seeded with this fragment's own pointer. -/
def walkFragsDirn (heap : Heap) (rankMe kmerLen : Nat) (fragElemGptr : GPtr)
    (nextGptr : Option GPtr) (uutig : List Char) (depths : Int)
    (steps reps : Int) (lv : List GPtr) : Option WalkResult :=
  match nextGptr with
  | none => some ⟨true, uutig, depths, steps, reps, lv⟩
  | some _ =>
    walkLoop heap rankMe kmerLen nextGptr fragElemGptr Dirn.NONE [fragElemGptr]
      uutig depths steps reps lv

end MHM2

namespace MHM2

/-- Failing input for the link-cleaning reciprocity claim: fragment A
(pointer (0,0)) declares B (0,1) as its right neighbor with a valid k-1
overlap, but B's left neighbor is a third fragment C (0,2), not A. -/
def c1FragA : FragElem :=
  ⟨none, some ⟨0, 1⟩, false, false, "ACGT".toList, 4, 0, false⟩

def c1FragB : FragElem :=
  ⟨some ⟨0, 2⟩, none, false, false, "GTAC".toList, 4, 0, false⟩

def c1FragC : FragElem :=
  ⟨none, none, false, false, "AAGT".toList, 4, 0, false⟩

def c1Heap : Heap := [(⟨0, 0⟩, c1FragA), (⟨0, 1⟩, c1FragB), (⟨0, 2⟩, c1FragC)]

/-- Failing input for the depth-weighting claim: a two-fragment chain with
k = 5; fragment A (length 9, summed depth 10) walks right into neighbor B
(length 8, summed depth 8) over a 4-base overlap. -/
def c6FragA : FragElem :=
  ⟨none, some ⟨0, 1⟩, false, false, "AACCGGTTA".toList, 9, 10, false⟩

def c6FragB : FragElem :=
  ⟨some ⟨0, 0⟩, none, false, false, "GTTAACCC".toList, 8, 8, false⟩

def c6Heap : Heap := [(⟨0, 0⟩, c6FragA), (⟨0, 1⟩, c6FragB)]

end MHM2

namespace MHM2

/-! ## The distributed k-mer index and the traversal walk primitive
(src/src/dbjg_traversal.cpp, kmer_dht.hpp)

`KmerCounts` and the `KmerDHT` sharding are declared in `kmer_dht.hpp`,
which is not part of the repository snapshot; they are modelled from the
spec: the value holds an occurrence count, two extension characters in
A,C,G,T,'F','X', and a nullable fragment-owner pointer; each rank's local
hash table holds exactly the k-mers whose home (target rank) is that rank,
and `get_local_kmer_counts` is a local lookup that returns null for any
k-mer not in the local shard.  The home function (`get_kmer_target_rank`,
a minimizer-based hash of the canonical k-mer) is abstracted as an
arbitrary function `tr` from canonical k-mers to ranks. -/

/-- Walk status (src/src/dbjg_traversal.cpp line 70). -/
inductive WalkStatus : Type
  | RUNNING | DEADEND | FORK | CONFLICT | REPEAT | VISITED
  deriving DecidableEq, Repr

/-- An extension slot: a concrete base, a fork 'F', or a dead end 'X'. -/
inductive Ext : Type
  | base : Base → Ext
  | F | X
  deriving DecidableEq, Repr

/-- Extract the base from an extension known not to be 'F' or 'X'.
(`comp_nucleotide` would DIE on 'F'/'X', but `get_next_step` only reaches
the complement after both have been ruled out.) -/
def Ext.getBase : (e : Ext) → e ≠ Ext.F → e ≠ Ext.X → Base
  | .base b, _, _ => b
  | .F, h, _ => absurd rfl h
  | .X, _, h => absurd rfl h

/-- Modelled from the spec: the KmerCounts value of the k-mer index. -/
structure KmerCounts where
  count : Nat
  left : Ext
  right : Ext
  uutig_frag : Option GPtr
  deriving DecidableEq, Repr

/-- The union of all ranks' k-mer shards, as an association list. -/
abbrev KmerMap := List (Kmer × KmerCounts)

def klookup : KmerMap → Kmer → Option KmerCounts
  | [], _ => none
  | e :: es, k => if e.1 = k then some e.2 else klookup es k

def kupdate (m : KmerMap) (k : Kmer) (kc : KmerCounts) : KmerMap :=
  List.map (fun e => if e.1 = k then (k, kc) else e) m

/-- `get_local_kmer_counts` on rank `rank`: a k-mer is in the local shard iff
its home is `rank`. -/
def getLocalKmerCounts (m : KmerMap) (tr : Kmer → Nat) (rank : Nat) (km : Kmer) :
    Option KmerCounts :=
  if tr km = rank then klookup m km else none

/-- Number of k-mers whose fragment-owner pointer is still null: the
termination measure of the traversal (each RUNNING step claims a previously
unclaimed k-mer). -/
def unclaimedCount (m : KmerMap) : Nat :=
  (List.filter (fun e => decide (e.2.uutig_frag = none)) m).length

/-- The traversal termination measure: the unclaimed k-mers plus one for a
still-pending permitted revisit of the start k-mer. -/
def stepMeasure (m : KmerMap) (revisit : Bool) : Nat :=
  unclaimedCount m + (if revisit then 1 else 0)

/-- `StepInfo` (src/src/dbjg_traversal.cpp lines 92-113).  `prev_ext` is a
char that may be 0 (none); `uutig` collects appended bases.  `sum_depths` is
a `uint32_t`; its wraparound is not modelled (counts are 16-bit and walks far
shorter than 2^16 steps). -/
structure StepInfo where
  walk_status : WalkStatus
  sum_depths : Nat
  prev_ext : Option Base
  next_ext : Base
  visited_frag_elem_gptr : Option GPtr
  uutig : List Base
  kmer : Kmer
  deriving DecidableEq, Repr

/-- Modelled from the spec: `Kmer::front()`. -/
def Kmer.front (km : Kmer) : Base := km.headD Base.A

/-- Modelled from the spec: `Kmer::back()`. -/
def Kmer.back (km : Kmer) : Base := km.getLastD Base.A

/-- Modelled from the spec: `Kmer::forward_base(x)`, the k-mer shifted
forward by one base. -/
def Kmer.forward_base (km : Kmer) (x : Base) : Kmer := km.drop 1 ++ [x]

/-- Modelled from the spec: `Kmer::backward_base(x)`, the k-mer shifted
backward by one base. -/
def Kmer.backward_base (km : Kmer) (x : Base) : Kmer := x :: km.dropLast

end MHM2

namespace MHM2

/-- `get_next_step` (src/src/dbjg_traversal.cpp lines 166-240), bundled with
the certificate that a RUNNING return has claimed at least one previously
unclaimed k-mer (or consumed the one permitted revisit), which drives the
termination of the outer walk.  The function itself loops locally: after
claiming, it advances the k-mer, recanonicalizes, and continues while the
next k-mer's home is still this rank. -/
def gnsAux (tr : Kmer → Nat) (rankMe : Nat) (dirn : Dirn) (tok : GPtr)
    (si : StepInfo) (revisit : Bool) (isRc : Bool) (m : KmerMap) :
    { r : StepInfo × KmerMap //
        r.1.walk_status = WalkStatus.RUNNING →
          unclaimedCount r.2 + 1 ≤ stepMeasure m revisit } :=
  match hlk : getLocalKmerCounts m tr rankMe si.kmer with
  | none => ⟨({ si with walk_status := WalkStatus.DEADEND }, m), fun h => nomatch h⟩
  | some kc =>
    if hX : kc.left = Ext.X ∨ kc.right = Ext.X then
      ⟨({ si with walk_status := WalkStatus.DEADEND }, m), fun h => nomatch h⟩
    else if hF : kc.left = Ext.F ∨ kc.right = Ext.F then
      ⟨({ si with walk_status := WalkStatus.FORK }, m), fun h => nomatch h⟩
    else
      let lb := kc.left.getBase (fun h => hF (Or.inl h)) (fun h => hX (Or.inl h))
      let rb := kc.right.getBase (fun h => hF (Or.inr h)) (fun h => hX (Or.inr h))
      let leftAdj := if isRc then rb.comp else lb
      let rightAdj := if isRc then lb.comp else rb
      if hconf : si.prev_ext ≠ none ∧
          ((dirn = Dirn.LEFT ∧ si.prev_ext ≠ some rightAdj) ∨
           (dirn = Dirn.RIGHT ∧ si.prev_ext ≠ some leftAdj)) then
        ⟨({ si with walk_status := WalkStatus.CONFLICT }, m), fun h => nomatch h⟩
      else if hv : kc.uutig_frag ≠ none ∧ kc.uutig_frag ≠ some tok then
        ⟨({ si with walk_status := WalkStatus.VISITED, visited_frag_elem_gptr := kc.uutig_frag },
          m), fun h => nomatch h⟩
      else if hrep : kc.uutig_frag = some tok ∧ revisit = false then
        ⟨({ si with walk_status := WalkStatus.REPEAT }, m), fun h => nomatch h⟩
      else
        have hkey : unclaimedCount (kupdate m si.kmer { kc with uutig_frag := some tok }) + 1 ≤
            stepMeasure m revisit := by
          have hkl : klookup m si.kmer = some kc := by
            rw [getLocalKmerCounts] at hlk
            by_cases h : tr si.kmer = rankMe
            · rwa [if_pos h] at hlk
            · rw [if_neg h] at hlk; exact absurd hlk (by simp)
          have hcons : ∀ (x : Kmer × KmerCounts) (xs : KmerMap),
              unclaimedCount (x :: xs) =
                (if x.2.uutig_frag = none then 1 else 0) + unclaimedCount xs := by
            intro x xs
            by_cases h : x.2.uutig_frag = none
            · rw [if_pos h]; simp [unclaimedCount, List.filter_cons, h, Nat.add_comm]
            · rw [if_neg h]; simp [unclaimedCount, List.filter_cons, h]
          have hle : ∀ (mm : KmerMap),
              unclaimedCount (kupdate mm si.kmer { kc with uutig_frag := some tok }) ≤
                unclaimedCount mm := by
            intro mm
            induction mm with
            | nil => exact Nat.le_refl _
            | cons e es ih =>
              rw [show kupdate (e :: es) si.kmer { kc with uutig_frag := some tok } =
                    (if e.1 = si.kmer then (si.kmer, { kc with uutig_frag := some tok }) else e) ::
                      kupdate es si.kmer { kc with uutig_frag := some tok } from rfl,
                 hcons, hcons e es]
              by_cases he : e.1 = si.kmer
              · rw [if_pos he]
                rw [if_neg (by simp)]
                omega
              · rw [if_neg he]
                omega
          cases hfrag : kc.uutig_frag with
          | none =>
            have hlt : ∀ (mm : KmerMap), klookup mm si.kmer = some kc →
                unclaimedCount (kupdate mm si.kmer { kc with uutig_frag := some tok }) <
                  unclaimedCount mm := by
              intro mm
              induction mm with
              | nil => intro h; simp [klookup] at h
              | cons e es ih =>
                intro h
                rw [show kupdate (e :: es) si.kmer { kc with uutig_frag := some tok } =
                      (if e.1 = si.kmer then (si.kmer, { kc with uutig_frag := some tok }) else e) ::
                        kupdate es si.kmer { kc with uutig_frag := some tok } from rfl,
                   hcons, hcons e es]
                by_cases he : e.1 = si.kmer
                · rw [klookup, if_pos he] at h
                  have he2 : e.2 = kc := by cases h; rfl
                  have htail := hle es
                  rw [if_pos he]
                  rw [if_neg (by simp), if_pos (by rw [he2, hfrag])]
                  omega
                · rw [klookup, if_neg he] at h
                  have htail := ih h
                  rw [if_neg he]
                  omega
            have hstrict := hlt m hkl
            unfold stepMeasure
            cases revisit <;> simp <;> omega
          | some f =>
            have hf : f = tok := by
              by_contra hne
              exact hv ⟨by rw [hfrag]; simp, by rw [hfrag]; simpa using hne⟩
            have hrev : revisit = true := by
              by_contra h
              exact hrep ⟨by rw [hfrag, hf], by simpa using h⟩
            have hweak := hle m
            rw [hrev]
            unfold stepMeasure
            simp
            omega
        let nextExt' := if dirn = Dirn.LEFT then leftAdj else rightAdj
        let kmer1 := if isRc then Kmer.revcomp si.kmer else si.kmer
        let prevExt' := if dirn = Dirn.LEFT then some (Kmer.back kmer1) else some (Kmer.front kmer1)
        let kmer2 := if dirn = Dirn.LEFT then Kmer.backward_base kmer1 nextExt'
                     else Kmer.forward_base kmer1 nextExt'
        let isRc' := Kmer.lt (Kmer.revcomp kmer2) kmer2
        let kmer3 := if Kmer.lt (Kmer.revcomp kmer2) kmer2 then Kmer.revcomp kmer2 else kmer2
        let si2 : StepInfo :=
          { walk_status := WalkStatus.RUNNING
            sum_depths := si.sum_depths + kc.count
            prev_ext := prevExt'
            next_ext := nextExt'
            visited_frag_elem_gptr := si.visited_frag_elem_gptr
            uutig := si.uutig ++ [si.next_ext]
            kmer := kmer2 }
        if tr kmer3 ≠ rankMe then
          ⟨(si2, kupdate m si.kmer { kc with uutig_frag := some tok }), fun _ => hkey⟩
        else
          let r := gnsAux tr rankMe dirn tok { si2 with kmer := kmer3 } false isRc'
            (kupdate m si.kmer { kc with uutig_frag := some tok })
          ⟨r.val, fun h => by
            have h2 := r.property h
            have h3 := hkey
            unfold stepMeasure at h2 h3 ⊢
            cases revisit <;> simp at h2 h3 ⊢ <;> omega⟩
termination_by stepMeasure m revisit
decreasing_by
  unfold stepMeasure at hkey ⊢
  cases revisit <;> simp at hkey ⊢ <;> omega

/-- `get_next_step` proper: the `StepInfo` and destination-shard state an
invocation returns.  The initial `StepInfo` mirrors the C++ constructor
`StepInfo(kmer, prev_ext, next_ext)`: zero depth, null visited pointer,
empty uutig.  (The constructor leaves `walk_status` value-initialized; it is
overwritten on every return path, so the initial value is unobservable.) -/
def get_next_step (tr : Kmer → Nat) (rankMe : Nat) (dirn : Dirn) (tok : GPtr)
    (startKmer : Kmer) (prevExt : Option Base) (nextExt : Base)
    (revisit isRc : Bool) (m : KmerMap) : StepInfo × KmerMap :=
  (gnsAux tr rankMe dirn tok
    { walk_status := WalkStatus.RUNNING
      sum_depths := 0
      prev_ext := prevExt
      next_ext := nextExt
      visited_frag_elem_gptr := none
      uutig := []
      kmer := startKmer } revisit isRc m).val

/-- The observable outcome of `traverse_dirn`: the accumulated uutig and
depth, the neighbor pointer from a VISITED termination, the terminal walk
status (fed to `WalkTermStats::update`), and the k-mer index state. -/
structure TraverseResult where
  uutig : List Base
  sum_depths : Int
  visited_gptr : Option GPtr
  status : WalkStatus
  m : KmerMap
  deriving DecidableEq, Repr

/-- The `while (true)` loop of `traverse_dirn`
(src/src/dbjg_traversal.cpp lines 257-289): canonicalize the current k-mer,
invoke the step primitive on its home rank, accumulate the returned string
and depth, and stop when the status is no longer RUNNING (reversing the
string for a LEFT walk). -/
def traverseDirnLoop (tr : Kmer → Nat) (dirn : Dirn) (tok : GPtr) (kmer : Kmer)
    (prevExt : Option Base) (nextExt : Base) (revisit : Bool)
    (uutig : List Base) (sumDepths : Int) (m : KmerMap) : TraverseResult :=
  match gnsAux tr
      (tr (if Kmer.lt (Kmer.revcomp kmer) kmer then Kmer.revcomp kmer else kmer)) dirn tok
      { walk_status := WalkStatus.RUNNING
        sum_depths := 0
        prev_ext := prevExt
        next_ext := nextExt
        visited_frag_elem_gptr := none
        uutig := []
        kmer := if Kmer.lt (Kmer.revcomp kmer) kmer then Kmer.revcomp kmer else kmer }
      revisit (Kmer.lt (Kmer.revcomp kmer) kmer) m with
  | ⟨(si, m'), hprop⟩ =>
    if hrun : si.walk_status = WalkStatus.RUNNING then
      traverseDirnLoop tr dirn tok si.kmer si.prev_ext si.next_ext false
        (uutig ++ si.uutig) (sumDepths + si.sum_depths) m'
    else
      { uutig := if dirn = Dirn.LEFT then (uutig ++ si.uutig).reverse else uutig ++ si.uutig
        sum_depths := sumDepths + si.sum_depths
        visited_gptr := si.visited_frag_elem_gptr
        status := si.walk_status
        m := m' }
termination_by stepMeasure m revisit
decreasing_by
  have hcert := hprop hrun
  unfold stepMeasure at hcert ⊢
  cases revisit <;> simp at hcert ⊢ <;> omega

/-- `traverse_dirn` (src/src/dbjg_traversal.cpp lines 246-290): seed the walk
(for a RIGHT walk the middle of the start k-mer is pre-appended and a single
revisit of the start k-mer is permitted, because the LEFT walk already
claimed it) and run the loop. -/
def traverse_dirn (tr : Kmer → Nat) (m : KmerMap) (kmer : Kmer) (tok : GPtr)
    (dirn : Dirn) : TraverseResult :=
  let prevExt : Option Base := none
  let nextExt := if dirn = Dirn.LEFT then Kmer.front kmer else Kmer.back kmer
  let revisit := if dirn = Dirn.LEFT then false else true
  let uutig0 : List Base := if dirn = Dirn.RIGHT then (kmer.drop 1).dropLast else []
  traverseDirnLoop tr dirn tok kmer prevExt nextExt revisit uutig0 0 m

/-- Modelled from the spec scenario: the k=4 cycle of the read ACGTACGTACGT.
Its distinct canonical k-mers are ACGT (its own revcomp), CGTA
(= canonical of CGTA/TACG) and GTAC (its own revcomp), each with the
single-base extensions the cycle induces and an unset fragment owner. -/
def cycleMap : KmerMap :=
  [([Base.A, Base.C, Base.G, Base.T], ⟨3, Ext.base Base.T, Ext.base Base.A, none⟩),
   ([Base.C, Base.G, Base.T, Base.A], ⟨2, Ext.base Base.A, Ext.base Base.C, none⟩),
   ([Base.G, Base.T, Base.A, Base.C], ⟨2, Ext.base Base.C, Ext.base Base.G, none⟩)]

end MHM2

namespace MHM2

/-! ## Contig collection, dump and load (src/src/contigs.cpp)

A contig's depth is a C++ `double`; it is modelled as an exact rational, and
the `to_string(double)` rendering of the FASTA header is modelled as decimal
formatting with six fractional digits (the `%f` default), so the header
carries `round6 depth`. -/

structure Contig where
  id : Int
  seq : List Char
  depth : ℚ
  deriving DecidableEq, Repr

/-- Digit character for a value 0-9. -/
def digitChar (n : Nat) : Char := Char.ofNat (48 + n)

/-- Model of `std::to_string` on a nonnegative integer: its decimal digits. -/
def natToDigitsCore (n : Nat) : List Char :=
  if n < 10 then [digitChar n]
  else natToDigitsCore (n / 10) ++ [digitChar (n % 10)]
termination_by n
decreasing_by
  have h10 : 10 ≤ n := Nat.le_of_not_lt (by assumption)
  exact Nat.div_lt_self (by omega) (by omega)

/-- Model of `std::to_string(int64_t)`. -/
def intToString (i : Int) : List Char :=
  if i < 0 then '-' :: natToDigitsCore i.natAbs else natToDigitsCore i.natAbs

/-- The depth value surviving the FASTA header: the nonnegative rational
rounded to six decimal places. -/
def round6 (q : ℚ) : ℚ := (((q * 1000000 + 1 / 2).floor : Int) : ℚ) / 1000000

/-- Pad the micro-units fraction to exactly six digits. -/
def pad6 (k : Nat) : List Char :=
  List.replicate (6 - (natToDigitsCore k).length) '0' ++ natToDigitsCore k

/-- Model of `std::to_string(double)` on the nonnegative depths this program
prints: fixed notation with six fractional digits. -/
def printDepth (q : ℚ) : List Char :=
  natToDigitsCore ((q * 1000000 + 1 / 2).floor.toNat / 1000000) ++
    '.' :: pad6 ((q * 1000000 + 1 / 2).floor.toNat % 1000000)

/-- The header line written by `dump_contigs` (src/src/contigs.cpp line 173):
`">Contig" << to_string(ctg->id) << " " << to_string(ctg->depth)`. -/
def headerOf (c : Contig) : List Char :=
  ">Contig".toList ++ intToString c.id ++ ' ' :: printDepth c.depth

/-- One dumped record: the header line and the sequence line.  (Lines 174-175
of the source compute the canonical reverse complement into a local `seq`
variable but line 177 writes `ctg->seq`, so the sequence is dumped exactly as
stored.) -/
def recordOf (c : Contig) : List Char :=
  headerOf c ++ '\n' :: (c.seq ++ ['\n'])

/-- The byte stream produced by the per-record loop of `dump_contigs`; with
several processes the shared file is the concatenation of the per-process
streams, which is the same as dumping the concatenated collection. -/
def serializeContigs (cs : List Contig) : List Char :=
  (cs.map recordOf).flatten

/-- `Contigs::dump_contigs` (src/src/contigs.cpp lines 167-187): records
whose sequence is shorter than `min_ctg_len` are skipped. -/
def dump_contigs (cs : List Contig) (minLen : Nat) : List Char :=
  serializeContigs (cs.filter (fun c => decide (minLen ≤ c.seq.length)))

/-- Model of `std::getline`: the line up to the next newline, and the stream
remainder past that newline (everything, at end of file). -/
def gline (rem : List Char) : List Char × List Char :=
  (rem.takeWhile (· ≠ '\n'), (rem.dropWhile (· ≠ '\n')).drop 1)

/-- The scan loop of `get_file_offset_for_rank`
(src/src/contigs.cpp lines 196-201): read lines from the seek position until
one begins with ">Contig", read one more line (that record's sequence), and
stop there.  Operates on the stream remainder; an end-of-file exit is mapped
to the empty remainder (the C++ `tellg()` then reports failure, and every
rank whose chunk contains no record start behaves like one positioned at end
of file). -/
def advanceToRecord (rem : List Char) : List Char :=
  match rem with
  | [] => []
  | x :: xs =>
    if (gline (x :: xs)).1.take 7 = ">Contig".toList then (gline (gline (x :: xs)).2).2
    else advanceToRecord (gline (x :: xs)).2
termination_by rem.length
decreasing_by
  have hdw : ∀ (l : List Char), (l.dropWhile (· ≠ '\n')).length ≤ l.length := by
    intro l
    induction l with
    | nil => simp
    | cons x xs ih =>
      rw [List.dropWhile_cons]
      split
      · simpa using Nat.le_succ_of_le ih
      · simp
  have hstep : ∀ (x : Char) (xs : List Char), ((gline (x :: xs)).2).length < (x :: xs).length := by
    intro x xs
    simp only [gline]
    by_cases hx : x = '\n'
    · subst hx
      simp [List.dropWhile_cons]
    · rw [List.dropWhile_cons, if_pos (by simpa using hx)]
      have hd := hdw xs
      cases hdw2 : xs.dropWhile (· ≠ '\n') with
      | nil => simp
      | cons y ys =>
        rw [hdw2] at hd
        simp at hd ⊢
        omega
  exact hstep _ _

/-- The record parse of the `load_contigs` read loop
(src/src/contigs.cpp lines 250-254): the id is `strtol(cname.c_str() + 7)`
and the depth is `strtod(endptr)`. -/
def parseRecord (cname sq : List Char) : Contig :=
  { id := (strtolE (cname.drop 7)).1
    seq := sq
    depth := strtod (strtolE (cname.drop 7)).2 }

/-- The read loop of `load_contigs` (src/src/contigs.cpp lines 240-256),
on the stream remainder: break when the position has reached the stop offset
(`stopRem` is the remainder length at the stop offset), on an empty header
line, or on an empty sequence line. -/
def readRecords (rem : List Char) (stopRem : Nat) : List Contig :=
  if rem.length ≤ stopRem then []
  else
    match hcname : (gline rem).1 with
    | [] => []
    | _ :: _ =>
      match (gline (gline rem).2).1 with
      | [] => []
      | sq@(_ :: _) => parseRecord (gline rem).1 sq :: readRecords (gline (gline rem).2).2 stopRem
termination_by rem.length
decreasing_by
  have hlem : ∀ (l : List Char), ((l.dropWhile (· ≠ '\n')).drop 1).length ≤ l.length := by
    intro l
    have h1 : ∀ (l2 : List Char), (l2.dropWhile (· ≠ '\n')).length ≤ l2.length := by
      intro l2
      induction l2 with
      | nil => simp
      | cons x xs ih =>
        rw [List.dropWhile_cons]
        split
        · simpa using Nat.le_succ_of_le ih
        · simp
    calc ((l.dropWhile (· ≠ '\n')).drop 1).length ≤ (l.dropWhile (· ≠ '\n')).length := by
          simp [List.length_drop]
      _ ≤ l.length := h1 l
  have hne : rem ≠ [] := by
    intro hcontra
    subst hcontra
    simp [gline] at hcname
  have hstrict : ((rem.dropWhile (· ≠ '\n')).drop 1).length < rem.length := by
    cases rem with
    | nil => exact absurd rfl hne
    | cons x xs =>
      by_cases hx : x = '\n'
      · subst hx
        simp [List.dropWhile_cons]
      · rw [List.dropWhile_cons, if_pos (by simpa using hx)]
        have := hlem xs
        cases hdw : xs.dropWhile (· ≠ '\n') with
        | nil => simp
        | cons y ys =>
          rw [hdw] at this
          simp at this ⊢
          omega
  calc ((((gline rem).2).dropWhile (· ≠ '\n')).drop 1).length ≤ ((gline rem).2).length := hlem _
    _ = ((rem.dropWhile (· ≠ '\n')).drop 1).length := by simp [gline]
    _ < rem.length := hstrict

/-- `get_file_offset_for_rank` (src/src/contigs.cpp lines 190-203) as a byte
offset: rank 0 starts at 0; any other rank seeks to
`file_size / n_ranks * rank` and advances to the end of the record whose
header starts the scan finds. -/
def loadStart (file : List Char) (n r : Nat) : Nat :=
  if r = 0 then 0
  else file.length - (advanceToRecord (file.drop (file.length / n * r))).length

/-- Each rank's stop offset: the next rank's start offset, and the file size
for the last rank (src/src/contigs.cpp lines 224-234). -/
def loadStop (file : List Char) (n r : Nat) : Nat :=
  if r = n - 1 then file.length else loadStart file n (r + 1)

/-- `Contigs::load_contigs` (src/src/contigs.cpp lines 189-263) across all
`n` ranks, in rank order: each rank reads the records between its start and
stop offsets. -/
def load_contigs (file : List Char) (n : Nat) : List Contig :=
  (List.range n).flatMap fun r =>
    readRecords (file.drop (loadStart file n r)) (file.length - loadStop file n r)

/-- Well-formedness of a contig for the dump/load round trip: a nonempty DNA
sequence and a nonnegative depth. -/
def ctgWF (c : Contig) : Prop :=
  c.seq ≠ [] ∧ (∀ ch ∈ c.seq, ch ∈ ['A', 'C', 'G', 'T', 'N']) ∧ 0 ≤ c.depth

/-- The record index at which the offset-advance scan lands when it starts
`q` bytes into the serialization: the scan always stops at the end of the
first record whose header-line start lies at or after `q`. -/
def splitIdx : List Contig → Nat → Nat
  | [], _ => 0
  | c :: ds', q =>
    if q ≤ (recordOf c).length then (if q = 0 then 1 else 2)
    else 1 + splitIdx ds' (q - (recordOf c).length)


/-- The record index at which rank `r` of `n` starts reading: rank 0 starts at
record 0, any other rank at the record the offset-advance scan lands on from
byte `file_size / n * r`. -/
def rankIdx (ds : List Contig) (n : Nat) (r : Nat) : Nat :=
  if r = 0 then 0 else splitIdx ds ((serializeContigs ds).length / n * r)

/-- The rank start index clamped to the collection (the scan can run past the
last record), with the virtual rank `n` pinned to the end. -/
def rankCut (ds : List Contig) (n : Nat) (r : Nat) : Nat :=
  if r = n then ds.length else min (rankIdx ds n r) ds.length


end MHM2

/-! ## Theorems -/


namespace MHM2

set_option maxRecDepth 4096 in
theorem lor_small : ∀ code : Nat, code < 8 → ∀ u : Nat, u < 32 → code ||| (u <<< 3) = code + 8 * u := by decide

set_option maxRecDepth 65536 in
theorem lor8 : ∀ code : Nat, code < 8 → ∀ u : Nat, u < 256 → ((code ||| (u <<< 3)) % 256) % 8 = code := by decide

theorem packBase_valid {c : Char} (h : c ∈ ['A', 'C', 'G', 'T', 'N']) :
    ∃ code, packBase c = some code ∧ code < 8 ∧ nucleotideMap code = c := by
  fin_cases h <;> exact ⟨_, rfl, by decide, rfl⟩

theorem packByte_spec (code q qualOffset : Nat) (hcode : code < 8) (hq : qualOffset ≤ q) :
    packByte code q qualOffset = code + 8 * min (q - qualOffset) 31 := by
  have hsub : (q : Int) - (qualOffset : Int) = ((q - qualOffset : Nat) : Int) := by omega
  have hmin : min ((q : Int) - (qualOffset : Int)) 31 = ((min (q - qualOffset) 31 : Nat) : Int) := by
    rw [hsub, show ((31 : Int)) = ((31 : Nat) : Int) by norm_num, ← Nat.cast_min]
  obtain ⟨m, hm_eq, hm_lt⟩ : ∃ m, min (q - qualOffset) 31 = m ∧ m < 32 := ⟨_, rfl, by omega⟩
  have h3 : (((m : Int)) % 256).toNat = m := by omega
  rw [hm_eq] at hmin
  simp only [packByte, hmin, h3, lor_small code hcode _ hm_lt, hm_eq]
  omega

theorem mapOpt_isSome {α β : Type} (f : α → Option β) :
    ∀ l : List α, (mapOpt f l).isSome ↔ ∀ a ∈ l, (f a).isSome := by
  intro l
  induction l with
  | nil => simp [mapOpt]
  | cons a l ih =>
    simp only [mapOpt, List.mem_cons]
    cases hfa : f a with
    | none => simp [hfa]
    | some b =>
      constructor
      · intro hs x hx
        rcases hx with h | h
        · subst h; simp [hfa]
        · rcases Option.isSome_iff_exists.mp hs with ⟨y, hy⟩
          cases hmm : mapOpt f l with
          | none => rw [hmm] at hy; simp at hy
          | some bs => exact (ih.mp (by simp [hmm])) x h
      · intro hall
        have : (mapOpt f l).isSome := ih.mpr (fun x hx => hall x (Or.inr hx))
        rcases Option.isSome_iff_exists.mp this with ⟨bs, hbs⟩
        simp [hbs]

theorem mapOpt_some_spec {α β : Type} (f : α → Option β) :
    ∀ (l : List α) (bs : List β), mapOpt f l = some bs →
      bs.length = l.length ∧ ∀ i (h : i < l.length), f (l.get ⟨i, h⟩) = bs[i]? := by
  intro l
  induction l with
  | nil =>
    intro bs h
    simp [mapOpt] at h
    subst h
    exact ⟨rfl, fun i h => absurd h (by simp)⟩
  | cons a l ih =>
    intro bs h
    simp only [mapOpt] at h
    cases hfa : f a with
    | none => rw [hfa] at h; simp at h
    | some b =>
      rw [hfa] at h
      cases hmm : mapOpt f l with
      | none => rw [hmm] at h; simp at h
      | some bs' =>
        rw [hmm] at h
        have hbs : bs = b :: bs' := by cases h; rfl
        obtain ⟨hlen, hget⟩ := ih bs' hmm
        subst hbs
        refine ⟨by simp [hlen], ?_⟩
        intro i hi
        cases i with
        | zero => simpa using hfa
        | succ j =>
          have hj : j < l.length := by simpa using hi
          simpa using hget j hj

theorem packBase_isSome_iff (c : Char) : (packBase c).isSome ↔ c ∈ acceptedSeqChars := by
  unfold packBase
  split_ifs <;> simp_all [acceptedSeqChars]

theorem packBase_iupac {c : Char} (h : c ∈ iupacChars) : packBase c = some 4 := by
  fin_cases h <;> rfl

theorem packByte_mod8 (code q qualOffset : Nat) (hcode : code < 8) :
    packByte code q qualOffset % 8 = code := by
  have hu : ((min ((q : Int) - (qualOffset : Int)) 31) % 256).toNat < 256 := by omega
  exact lor8 code hcode _ hu

theorem bytes_round_trip (qualOffset : Nat) :
    ∀ (seq : List Char) (quals : List Nat),
      (∀ c ∈ seq, c ∈ ['A', 'C', 'G', 'T', 'N']) →
      quals.length = seq.length →
      (∀ q ∈ quals, qualOffset ≤ q) →
      ∃ bs : List Nat,
        mapOpt (fun cq => (packBase cq.1).map fun code => packByte code cq.2 qualOffset)
            (seq.zip quals) = some bs ∧
        bs.map (fun b => nucleotideMap (b % 8)) = seq ∧
        bs.map (fun b => qualOffset + b / 8) =
          quals.map (fun q => qualOffset + min (q - qualOffset) 31) := by
  intro seq
  induction seq with
  | nil =>
    intro quals _ hlen _
    have : quals = [] := List.eq_nil_of_length_eq_zero (by simpa using hlen)
    subst this
    exact ⟨[], rfl, rfl, rfl⟩
  | cons c seq ih =>
    intro quals hchars hlen hq
    cases quals with
    | nil => simp at hlen
    | cons q quals =>
      obtain ⟨code, hcode_eq, hcode_lt, hdec⟩ := packBase_valid (hchars c (by simp))
      obtain ⟨bs, hbs, hseq, hquals⟩ :=
        ih quals (fun x hx => hchars x (by simp [hx])) (by simpa using hlen)
          (fun x hx => hq x (by simp [hx]))
      have hqhead : qualOffset ≤ q := hq q (by simp)
      refine ⟨packByte code q qualOffset :: bs, ?_, ?_, ?_⟩
      · simp [List.zip_cons_cons, mapOpt, hcode_eq]
        exact hbs
      · have hb : packByte code q qualOffset % 8 = code := packByte_mod8 code q qualOffset hcode_lt
        simp [hb, hdec, hseq]
      · have hspec := packByte_spec code q qualOffset hcode_lt hqhead
        have hdiv : packByte code q qualOffset / 8 = min (q - qualOffset) 31 := by omega
        simp [hdiv, hquals]

end MHM2

namespace MHM2

/-- C9: For every read whose bases are in A,C,G,T,N and whose quality characters
are at least the quality offset, unpacking a PackedRead constructed from
(id, seq, quals) reproduces seq exactly and returns each quality character equal
to qual_offset plus the original quality clamped to min(q - offset, 31). -/
theorem c9_packed_read_round_trip (idStr seq : List Char) (quals : List Nat) (qualOffset : Nat)
    (hchars : ∀ c ∈ seq, c ∈ ['A', 'C', 'G', 'T', 'N'])
    (hlen : quals.length = seq.length)
    (hq : ∀ q ∈ quals, qualOffset ≤ q)
    (hshort : seq.length < 65536) :
    ∃ pr, mkPackedRead idStr seq quals qualOffset = some pr ∧
      pr.unpackSeq = seq ∧
      pr.unpackQuals qualOffset = quals.map fun q => qualOffset + min (q - qualOffset) 31 := by
  obtain ⟨bs, hbs, hseq, hquals⟩ := bytes_round_trip qualOffset seq quals hchars hlen hq
  have hbslen : bs.length = seq.length := by
    have := congrArg List.length hseq
    simpa using this
  refine ⟨_, by rw [mkPackedRead, hbs]; rfl, ?_, ?_⟩
  · simp only [PackedRead.unpackSeq, Nat.mod_eq_of_lt hshort]
    rw [List.take_of_length_le (by omega)]
    exact hseq
  · simp only [PackedRead.unpackQuals, Nat.mod_eq_of_lt hshort]
    rw [List.take_of_length_le (by omega)]
    exact hquals

theorem c9_witness :
    (∀ q ∈ ([70, 40] : List Nat), 33 ≤ q) ∧
    ∃ pr, mkPackedRead ('@' :: 'r' :: '5' :: '/' :: ['2']) ['A', 'C'] [70, 40] 33 = some pr ∧
      pr.unpackSeq = ['A', 'C'] ∧
      pr.unpackQuals 33 = ([70, 40] : List Nat).map fun q => 33 + min (q - 33) 31 :=
  ⟨by decide,
   c9_packed_read_round_trip ('@' :: 'r' :: '5' :: '/' :: ['2']) ['A', 'C'] [70, 40] 33
     (by decide) (by decide) (by decide) (by decide)⟩

end MHM2

namespace MHM2

theorem isSome_map_iff {α β : Type} (g : α → β) (x : Option α) :
    (Option.map g x).isSome ↔ x.isSome := by
  cases x <;> simp

/-- C10: PackedRead construction aborts with a fatal error only for sequence
characters outside A,C,G,T,N plus the eleven IUPAC ambiguity characters
U,R,Y,K,M,S,W,B,D,H,V; the IUPAC characters are accepted and encoded
identically to 'N' (code 4), so unpacking such a read returns 'N' at those
positions. -/
theorem c10_iupac_encoded_as_n (idStr seq : List Char) (quals : List Nat) (qualOffset : Nat)
    (hlen : quals.length = seq.length)
    (hshort : seq.length < 65536) :
    ((mkPackedRead idStr seq quals qualOffset).isSome ↔ ∀ c ∈ seq, c ∈ acceptedSeqChars) ∧
    (∀ c ∈ iupacChars, packBase c = packBase 'N') ∧
    (∀ pr, mkPackedRead idStr seq quals qualOffset = some pr →
      ∀ i (h : i < seq.length), seq.get ⟨i, h⟩ ∈ iupacChars →
        ∃ h2 : i < pr.unpackSeq.length, pr.unpackSeq.get ⟨i, h2⟩ = 'N') := by
  have hzip : (seq.zip quals).length = seq.length := by
    simp [List.length_zip, hlen]
  refine ⟨?_, by decide, ?_⟩
  · rw [mkPackedRead, isSome_map_iff, mapOpt_isSome]
    constructor
    · intro hall c hc
      rw [← List.map_fst_zip seq quals (by omega)] at hc
      obtain ⟨cq, hcq, hfst⟩ := List.mem_map.mp hc
      have := hall cq hcq
      rw [isSome_map_iff, packBase_isSome_iff, hfst] at this
      exact this
    · intro hall cq hcq
      rw [isSome_map_iff, packBase_isSome_iff]
      exact hall cq.1 (List.of_mem_zip hcq).1
  · intro pr hpr i hi hiupac
    rw [mkPackedRead] at hpr
    cases hmo : mapOpt (fun cq => (packBase cq.1).map fun code => packByte code cq.2 qualOffset)
        (seq.zip quals) with
    | none => rw [hmo] at hpr; simp at hpr
    | some bs =>
      rw [hmo] at hpr
      have hpr' : pr = { read_id := mkReadId idStr, read_len := seq.length % 65536, bytes := bs } := by
        cases hpr; rfl
      obtain ⟨hbslen, hget⟩ := mapOpt_some_spec _ _ _ hmo
      rw [hzip] at hbslen
      have hus : pr.unpackSeq = bs.map fun b => nucleotideMap (b % 8) := by
        rw [hpr', PackedRead.unpackSeq]
        simp only
        rw [Nat.mod_eq_of_lt hshort, List.take_of_length_le (by omega)]
      have hilt : i < bs.length := by omega
      have hizip : i < (seq.zip quals).length := by omega
      have hiq : i < quals.length := by omega
      have hstep := hget i hizip
      have hpair : (seq.zip quals).get ⟨i, hizip⟩ = (seq.get ⟨i, hi⟩, quals.get ⟨i, hiq⟩) := by
        rw [List.get_eq_getElem, List.getElem_zip]
        simp [List.get_eq_getElem]
      rw [hpair] at hstep
      simp only [packBase_iupac hiupac, Option.map_some] at hstep
      have hbval : bs.get ⟨i, hilt⟩ = packByte 4 (quals.get ⟨i, hiq⟩) qualOffset := by
        have h2 := List.getElem?_eq_getElem hilt
        rw [← hstep] at h2
        simp only [List.get_eq_getElem]
        exact (Option.some_injective _ h2.symm)
      have hlen2 : i < pr.unpackSeq.length := by
        rw [hus, List.length_map]; omega
      refine ⟨hlen2, ?_⟩
      have hh : pr.unpackSeq.get ⟨i, hlen2⟩ = nucleotideMap (bs.get ⟨i, hilt⟩ % 8) := by
        simp only [List.get_eq_getElem, hus, List.getElem_map]
      rw [hh, hbval, packByte_mod8 4 _ qualOffset (by norm_num)]
      rfl

end MHM2

namespace MHM2

theorem c10_witness :
    (([40, 40] : List Nat).length = (['A', 'R'] : List Char).length ∧
      (['A', 'R'] : List Char).length < 65536) ∧
    (((mkPackedRead ('@' :: 'r' :: '1' :: '/' :: ['2']) ['A', 'R'] [40, 40] 33).isSome ↔
        ∀ c ∈ (['A', 'R'] : List Char), c ∈ acceptedSeqChars) ∧
      (∀ c ∈ iupacChars, packBase c = packBase 'N') ∧
      (∀ pr, mkPackedRead ('@' :: 'r' :: '1' :: '/' :: ['2']) ['A', 'R'] [40, 40] 33 = some pr →
        ∀ i (h : i < (['A', 'R'] : List Char).length),
          (['A', 'R'] : List Char).get ⟨i, h⟩ ∈ iupacChars →
            ∃ h2 : i < pr.unpackSeq.length, pr.unpackSeq.get ⟨i, h2⟩ = 'N')) :=
  ⟨⟨by decide, by decide⟩,
   c10_iupac_encoded_as_n ('@' :: 'r' :: '1' :: '/' :: ['2']) ['A', 'R'] [40, 40] 33
     (by decide) (by decide)⟩

/-- C5 counterexample: the claim says a positive id means pair-1, but
constructing a PackedRead from the pair-1 id string "@r5/1" yields the
negative id -1, and `unpack` renders a negative id with pair character '1'. -/
theorem c5_counterexample :
    mkReadId ('@' :: 'r' :: '5' :: '/' :: ['1']) = -1 ∧
    pairIdChar (mkReadId ('@' :: 'r' :: '5' :: '/' :: ['1'])) = '1' ∧
    ¬ 0 < mkReadId ('@' :: 'r' :: '5' :: '/' :: ['1']) := by
  decide

/-- C5 amended: the sign convention is the reverse of the claim: a NEGATIVE
id means the read is pair-1 (id string ending in '1') and a positive id means
pair-2; construction and unpacking agree with this (flipped) convention. -/
theorem c5_pair_sign_flipped (idStr : List Char) (h : 0 ≤ strtol (idStr.drop 1)) :
    (idStr.getLast? = some '1' →
      mkReadId idStr < 0 ∧ pairIdChar (mkReadId idStr) = '1') ∧
    (idStr.getLast? ≠ some '1' →
      0 < mkReadId idStr ∧ pairIdChar (mkReadId idStr) = '2') := by
  by_cases h1 : idStr.getLast? = some '1'
  · have hval : mkReadId idStr = -(strtol (idStr.drop 1) + 1) := by
      rw [mkReadId, if_pos h1]
    have hneg : mkReadId idStr < 0 := by omega
    refine ⟨fun _ => ⟨hneg, ?_⟩, fun hc => absurd h1 hc⟩
    rw [pairIdChar, if_pos hneg]
  · have hval : mkReadId idStr = strtol (idStr.drop 1) + 1 := by
      rw [mkReadId, if_neg h1]
    have hpos : 0 < mkReadId idStr := by omega
    refine ⟨fun hc => absurd hc h1, fun _ => ⟨hpos, ?_⟩⟩
    rw [pairIdChar, if_neg (by omega)]

theorem c5_witness :
    (0 ≤ strtol (('@' :: 'r' :: '5' :: '/' :: ['1']).drop 1)) ∧
    ((('@' :: 'r' :: '5' :: '/' :: ['1']).getLast? = some '1' →
      mkReadId ('@' :: 'r' :: '5' :: '/' :: ['1']) < 0 ∧
        pairIdChar (mkReadId ('@' :: 'r' :: '5' :: '/' :: ['1'])) = '1') ∧
     (('@' :: 'r' :: '5' :: '/' :: ['1']).getLast? ≠ some '1' →
      0 < mkReadId ('@' :: 'r' :: '5' :: '/' :: ['1']) ∧
        pairIdChar (mkReadId ('@' :: 'r' :: '5' :: '/' :: ['1'])) = '2')) :=
  ⟨by decide, c5_pair_sign_flipped ('@' :: 'r' :: '5' :: '/' :: ['1']) (by decide)⟩

end MHM2


namespace MHM2

theorem Base.comp_comp : ∀ b : Base, b.comp.comp = b := by decide

theorem Kmer.revcomp_revcomp (km : Kmer) : km.revcomp.revcomp = km := by
  have h : Base.comp ∘ Base.comp = id := funext (by decide)
  simp [Kmer.revcomp, List.map_reverse, List.reverse_reverse, List.map_map, h]

theorem Kmer.revcomp_length (km : Kmer) : km.revcomp.length = km.length := by
  simp [Kmer.revcomp]

theorem Kmer.lt_asymm : ∀ a b : Kmer, Kmer.lt a b = true → Kmer.lt b a = false := by
  intro a
  induction a with
  | nil => intro b h; cases b <;> simp [Kmer.lt] at h ⊢
  | cons x xs ih =>
    intro b h
    cases b with
    | nil => simp [Kmer.lt] at h
    | cons y ys =>
      simp only [Kmer.lt, Bool.or_eq_true, Bool.and_eq_true, decide_eq_true_eq] at h ⊢
      rcases h with h | ⟨heq, hrec⟩
      · simp only [Bool.or_eq_false_iff, Bool.and_eq_false_iff, decide_eq_false_iff_not]
        constructor
        · omega
        · left; omega
      · simp only [Bool.or_eq_false_iff, Bool.and_eq_false_iff, decide_eq_false_iff_not]
        constructor
        · omega
        · right; exact ih ys hrec

theorem Kmer.lt_connex : ∀ a b : Kmer, a.length = b.length →
    Kmer.lt a b = false → Kmer.lt b a = false → a = b := by
  intro a
  induction a with
  | nil =>
    intro b hlen _ _
    cases b with
    | nil => rfl
    | cons y ys => simp at hlen
  | cons x xs ih =>
    intro b hlen h1 h2
    cases b with
    | nil => simp at hlen
    | cons y ys =>
      simp only [Kmer.lt, Bool.or_eq_false_iff, Bool.and_eq_false_iff,
        decide_eq_false_iff_not] at h1 h2
      obtain ⟨hxy, h1'⟩ := h1
      obtain ⟨hyx, h2'⟩ := h2
      have hcodes : x.code = y.code := by omega
      have hx : x = y := by
        cases x <;> cases y <;> simp_all [Base.code]
      subst hx
      rcases h1' with h | h
      · omega
      · rcases h2' with h2 | h2
        · omega
        · rw [ih ys (by simpa using hlen) h h2]

/-- C7 counterexample: the key stored by the read shuffler for the k-mer AAAT
is its reverse complement ATTT, the lexicographically LARGER of the pair, not
the canonical (smaller) form AAAT that the claim asserts. -/
theorem c7_counterexample :
    ctgShuffleKey [Base.A, Base.A, Base.A, Base.T] = [Base.A, Base.T, Base.T, Base.T] ∧
    canonicalKmer [Base.A, Base.A, Base.A, Base.T] = [Base.A, Base.A, Base.A, Base.T] ∧
    ctgShuffleKey [Base.A, Base.A, Base.A, Base.T] ≠
      canonicalKmer [Base.A, Base.A, Base.A, Base.T] := by
  decide

/-- C7 amended: every key stored in the read shuffler's k-mer to contig-id map
is the lexicographically LARGER of the k-mer and its reverse complement (not
the smaller, as the claim states); the read-side lookups apply the identical
transformation, and the transformation is invariant under reverse
complementation, so a read k-mer and the equal contig k-mer (in either
orientation) always meet at the same map entry. -/
theorem c7_shuffle_keys_agree (km : Kmer) :
    ctgShuffleKey km = readShuffleKey km ∧
    ctgShuffleKey (Kmer.revcomp km) = ctgShuffleKey km := by
  refine ⟨rfl, ?_⟩
  unfold ctgShuffleKey
  rw [Kmer.revcomp_revcomp]
  by_cases h1 : Kmer.lt km km.revcomp
  · rw [if_pos h1, if_neg (by rw [Kmer.lt_asymm km km.revcomp h1]; simp)]
  · cases h2 : Kmer.lt km.revcomp km with
    | true => simp [h1]
    | false =>
      have heq : km = km.revcomp :=
        Kmer.lt_connex km km.revcomp (Kmer.revcomp_length km).symm
          (by simpa using h1) h2
      simp [h1, ← heq]

end MHM2

namespace MHM2

theorem take_sum_ge_getD (cs : List Nat) : ∀ r : Nat, cs.getD r 0 ≤ (cs.take (r + 1)).sum := by
  induction cs with
  | nil => intro r; simp
  | cons c cs ih =>
    intro r
    cases r with
    | zero => simp
    | succ r =>
      simp only [List.getD_cons_succ, List.take_succ_cons, List.sum_cons]
      have := ih r
      omega

theorem take_succ_sum (cs : List Nat) : ∀ r : Nat, r < cs.length →
    (cs.take (r + 1)).sum = (cs.take r).sum + cs.getD r 0 := by
  induction cs with
  | nil => intro r hr; simp at hr
  | cons c cs ih =>
    intro r hr
    cases r with
    | zero => simp
    | succ r =>
      simp only [List.take_succ_cons, List.sum_cons, List.getD_cons_succ]
      rw [ih r (by simpa using hr)]
      omega

theorem roundIds_cons (c : Nat) (cs : List Nat) (r : Nat) :
    roundIds (c :: cs) (r + 1) = (roundIds cs r).map (· + c) := by
  unfold roundIds
  simp only [List.getD_cons_succ, List.take_succ_cons, List.sum_cons, List.map_map]
  apply List.map_congr_left
  intro x _
  have := take_sum_ge_getD cs r
  simp only [Function.comp_apply]
  omega

theorem roundIds_zero (c : Nat) (cs : List Nat) :
    roundIds (c :: cs) 0 = List.range c := by
  unfold roundIds
  simp

/-- C8: after the traversal round's id-assignment step, the union over all
ranks of emitted contig ids is exactly the range 0..N-1 with no gaps or
duplicates (N the total contig count), and each rank's ids form the
contiguous block starting at the exclusive prefix sum of the per-rank
counts. -/
theorem c8_contig_ids_are_range (counts : List Nat) :
    allRoundIds counts = List.range counts.sum ∧
    (∀ r, r < counts.length →
      roundIds counts r =
        (List.range (counts.getD r 0)).map (· + (counts.take r).sum)) := by
  constructor
  · induction counts with
    | nil => simp [allRoundIds]
    | cons c cs ih =>
      unfold allRoundIds at ih ⊢
      rw [List.length_cons, List.range_succ_eq_map, List.flatMap_cons, roundIds_zero]
      have hmap : (List.map Nat.succ (List.range cs.length)).flatMap (roundIds (c :: cs)) =
          (List.range cs.length).flatMap (fun r => roundIds (c :: cs) (r + 1)) := by
        rw [List.flatMap_map]
      rw [hmap]
      have hshift : (List.range cs.length).flatMap (fun r => (roundIds cs r).map (· + c)) =
          ((List.range cs.length).flatMap (roundIds cs)).map (· + c) := by
        rw [List.map_flatMap]
      simp only [roundIds_cons, hshift, ih]
      rw [List.sum_cons, List.range_add]
      simp [Nat.add_comm]
  · intro r hr
    unfold roundIds
    rw [take_succ_sum counts r hr]
    simp only [Nat.add_sub_cancel]

end MHM2

namespace MHM2

theorem c8_witness :
    allRoundIds [2, 0, 3] = List.range ([2, 0, 3] : List Nat).sum ∧
    (∀ r, r < ([2, 0, 3] : List Nat).length →
      roundIds [2, 0, 3] r =
        (List.range (([2, 0, 3] : List Nat).getD r 0)).map
          (· + (([2, 0, 3] : List Nat).take r).sum)) :=
  c8_contig_ids_are_range [2, 0, 3]

end MHM2

namespace MHM2

/-- C1: the claim says link cleaning enforces reciprocity (a retained A-to-B
link requires B to point back to A on the appropriate side, otherwise the
link is cleared and counted as non-reciprocating).  The code instead clears
the link only when the neighbor's far-side pointer equals the NEIGHBOR
ITSELF (`== nb_gptr`); `set_link_status` does not even receive A's own
pointer `frag_elem_gptr`.  On the failing input, A's right link to B is
retained (and counted as a plain overlap) by a full `clean_frag_links` pass
although B's left pointer is C, not A, and B's right pointer is null. -/
theorem c1_nonreciprocal_link_retained :
    cleanFragLinks 3 c1Heap [⟨0, 0⟩, ⟨0, 1⟩, ⟨0, 2⟩] = some c1Heap ∧
    (hlookup c1Heap ⟨0, 0⟩).map FragElem.right_gptr = some (some ⟨0, 1⟩) ∧
    (hlookup c1Heap ⟨0, 1⟩).map FragElem.left_gptr = some (some ⟨0, 2⟩) ∧
    (hlookup c1Heap ⟨0, 1⟩).map FragElem.right_gptr = some none ∧
    ((⟨0, 2⟩ : GPtr) == (⟨0, 0⟩ : GPtr)) = false ∧
    isOverlap c1FragA.frag_seq c1FragB.frag_seq 2 = true ∧
    setLinkStatus c1Heap Dirn.RIGHT (some ⟨0, 1⟩) false c1FragA.frag_seq 3 =
      some (some ⟨0, 1⟩, false, 1, 0, 0) := by
  decide

/-- C6: the claim says each appended neighbor contributes its summed depth
times the real-valued weight 1 - (k-1)/frag_len.  In the code
`(kmer_len - 1) / next_frag_elem.frag_len` is unsigned INTEGER division, so
for frag_len > k-1 the weight is exactly 1 and no overlap discount is
applied: with k = 5, frag_len = 8, sum_depths = 8 the code adds 8 where the
spec formula adds 8 * (1 - 4/8) = 4; the full walk on the two-fragment chain
accumulates 10 + 8 = 18 instead of the spec's 14.  (The emitted average
depth formula itself, total / (len - k + 2), matches the claim:
18 / (13 - 5 + 2) = 9/5.) -/
theorem c6_overlap_weight_is_integer_division :
    depthContrib 5 8 8 = 8 ∧
    specDepthContrib 5 8 8 = 4 ∧
    (decide ((depthContrib 5 8 8 : ℚ) = specDepthContrib 5 8 8)) = false ∧
    contigAvgDepth 18 13 5 = 9 / 5 ∧
    walkFragsDirn c6Heap 0 5 ⟨0, 0⟩ (some ⟨0, 1⟩) c6FragA.frag_seq 10 1 0 [] =
      some ⟨true, "AACCGGTTAACCC".toList, 18, 2, 0, [⟨0, 1⟩]⟩ := by
  refine ⟨by decide, by norm_num [specDepthContrib], ?_, by norm_num [contigAvgDepth], ?_⟩
  · rw [decide_eq_false_iff_not]
    norm_num [depthContrib, specDepthContrib]
  · simp [walkFragsDirn, walkLoop, c6Heap, c6FragA, c6FragB, hlookup, isOverlap, revcompStr,
      mapOpt, getOtherSideGptr, depthContrib, String.toList]

end MHM2

namespace MHM2

theorem walkstatus_ne_running_mem (s : WalkStatus) (h : s ≠ WalkStatus.RUNNING) :
    s ∈ [WalkStatus.DEADEND, WalkStatus.FORK, WalkStatus.CONFLICT,
         WalkStatus.REPEAT, WalkStatus.VISITED] := by
  cases s <;> simp_all

theorem traverseDirnLoop_not_running (tr : Kmer → Nat) (dirn : Dirn) (tok : GPtr) (kmer : Kmer)
    (prevExt : Option Base) (nextExt : Base) (revisit : Bool)
    (uutig : List Base) (sumDepths : Int) (m : KmerMap) :
    (traverseDirnLoop tr dirn tok kmer prevExt nextExt revisit uutig sumDepths m).status ≠
      WalkStatus.RUNNING := by
  induction kmer, prevExt, nextExt, revisit, uutig, sumDepths, m
    using traverseDirnLoop.induct tr dirn tok with
  | case1 a b c d e f g k l mm nn oo ih =>
    rw [traverseDirnLoop]
    simp only [dite_eq_ite] at nn
    simp only [nn]
    rw [dif_pos oo]
    exact ih
  | case2 a b c d e f g k l mm nn oo =>
    rw [traverseDirnLoop]
    simp only [dite_eq_ite] at nn
    simp only [nn]
    rw [dif_neg oo]
    simpa using oo

theorem c3_cycle_eval :
    (traverse_dirn (fun _ => 0) cycleMap [Base.C, Base.G, Base.T, Base.A] ⟨0, 7⟩
        Dirn.RIGHT).status = WalkStatus.REPEAT ∧
    (traverse_dirn (fun _ => 0) cycleMap [Base.C, Base.G, Base.T, Base.A] ⟨0, 7⟩
        Dirn.RIGHT).uutig = [Base.G, Base.T, Base.A, Base.C] := by
  constructor <;>
    simp [traverse_dirn, traverseDirnLoop, gnsAux, cycleMap, getLocalKmerCounts, klookup,
      kupdate, Kmer.revcomp, Kmer.lt, Base.comp, Base.code, Ext.getBase, Kmer.front, Kmer.back,
      Kmer.forward_base, Kmer.backward_base, unclaimedCount, stepMeasure, get_next_step]

/-- C2: classification of a `get_next_step` invocation on a canonical k-mer:
DEADEND when the k-mer is absent from the local shard or either stored
extension is 'X'; FORK when either stored extension is 'F' (both checks on
the stored values, before the reverse-complement orientation adjustment);
CONFLICT when a previous-extension base is given and the (orientation-
adjusted) stored extension on the entering side differs from it; VISITED,
returning the owner's fragment pointer, when the fragment-owner pointer is
set and differs from the caller's token; REPEAT when the owner pointer
equals the caller's own token and revisits are not permitted. -/
theorem c2_get_next_step_classification
    (tr : Kmer → Nat) (rankMe : Nat) (dirn : Dirn) (tok : GPtr) (km : Kmer)
    (prevExt : Option Base) (nextExt : Base) (revisit isRc : Bool) (m : KmerMap) :
    (getLocalKmerCounts m tr rankMe km = none →
      (get_next_step tr rankMe dirn tok km prevExt nextExt revisit isRc m).1.walk_status =
        WalkStatus.DEADEND) ∧
    (∀ kc, getLocalKmerCounts m tr rankMe km = some kc →
      ((kc.left = Ext.X ∨ kc.right = Ext.X →
        (get_next_step tr rankMe dirn tok km prevExt nextExt revisit isRc m).1.walk_status =
          WalkStatus.DEADEND) ∧
      (¬(kc.left = Ext.X ∨ kc.right = Ext.X) → (kc.left = Ext.F ∨ kc.right = Ext.F) →
        (get_next_step tr rankMe dirn tok km prevExt nextExt revisit isRc m).1.walk_status =
          WalkStatus.FORK) ∧
      (∀ lb rb, kc.left = Ext.base lb → kc.right = Ext.base rb →
        ((prevExt ≠ none ∧
            ((dirn = Dirn.LEFT ∧ prevExt ≠ some (if isRc then lb.comp else rb)) ∨
             (dirn = Dirn.RIGHT ∧ prevExt ≠ some (if isRc then rb.comp else lb))) →
          (get_next_step tr rankMe dirn tok km prevExt nextExt revisit isRc m).1.walk_status =
            WalkStatus.CONFLICT) ∧
        (¬(prevExt ≠ none ∧
            ((dirn = Dirn.LEFT ∧ prevExt ≠ some (if isRc then lb.comp else rb)) ∨
             (dirn = Dirn.RIGHT ∧ prevExt ≠ some (if isRc then rb.comp else lb)))) →
          (∀ f, kc.uutig_frag = some f → f ≠ tok →
            (get_next_step tr rankMe dirn tok km prevExt nextExt revisit isRc m).1.walk_status =
              WalkStatus.VISITED ∧
            (get_next_step tr rankMe dirn tok km prevExt nextExt revisit isRc
                m).1.visited_frag_elem_gptr = some f) ∧
          (kc.uutig_frag = some tok → revisit = false →
            (get_next_step tr rankMe dirn tok km prevExt nextExt revisit isRc m).1.walk_status =
              WalkStatus.REPEAT)))))) := by
  constructor
  · intro h
    unfold get_next_step
    rw [gnsAux]
    split
    · rfl
    · rename_i kc heq
      rw [h] at heq
      exact absurd heq (by simp)
  · intro kc hkc
    refine ⟨?_, ?_, ?_⟩
    · intro hX2
      unfold get_next_step
      rw [gnsAux]
      split
      · rfl
      · rename_i kc2 heq
        rw [hkc] at heq
        have hk2 : kc2 = kc := by cases heq; rfl
        subst hk2
        rw [dif_pos hX2]
    · intro hX2 hF2
      unfold get_next_step
      rw [gnsAux]
      split
      · rename_i heq
        rw [hkc] at heq
        exact absurd heq (by simp)
      · rename_i kc2 heq
        rw [hkc] at heq
        have hk2 : kc2 = kc := by cases heq; rfl
        subst hk2
        rw [dif_neg hX2, dif_pos hF2]
    · intro lb rb hl hr
      have hXn : ¬(kc.left = Ext.X ∨ kc.right = Ext.X) := by
        rw [hl, hr]; simp
      have hFn : ¬(kc.left = Ext.F ∨ kc.right = Ext.F) := by
        rw [hl, hr]; simp
      have hgb : ∀ (e : Ext) (h1 : e ≠ Ext.F) (h2 : e ≠ Ext.X) (b : Base),
          e = Ext.base b → e.getBase h1 h2 = b := by
        intro e h1 h2 b hb
        subst hb
        rfl
      have hlb := hgb kc.left (fun h => hFn (Or.inl h)) (fun h => hXn (Or.inl h)) lb hl
      have hrb := hgb kc.right (fun h => hFn (Or.inr h)) (fun h => hXn (Or.inr h)) rb hr
      constructor
      · intro hconf2
        unfold get_next_step
        rw [gnsAux]
        split
        · rename_i heq
          rw [hkc] at heq
          exact absurd heq (by simp)
        · rename_i kc2 heq
          rw [hkc] at heq
          have hk2 : kc2 = kc := by cases heq; rfl
          subst hk2
          rw [dif_neg hXn, dif_neg hFn]
          simp only
          rw [dif_pos (by simpa [hlb, hrb] using hconf2)]
      · intro hnconf
        constructor
        · intro f hf hfne
          have hv2 : kc.uutig_frag ≠ none ∧ kc.uutig_frag ≠ some tok := by
            rw [hf]
            exact ⟨by simp, by simpa using hfne⟩
          constructor <;>
          · unfold get_next_step
            rw [gnsAux]
            split
            · rename_i heq
              rw [hkc] at heq
              exact absurd heq (by simp)
            · rename_i kc2 heq
              rw [hkc] at heq
              have hk2 : kc2 = kc := by cases heq; rfl
              subst hk2
              rw [dif_neg hXn, dif_neg hFn]
              simp only
              rw [dif_neg (by simpa [hlb, hrb] using hnconf), dif_pos hv2]
              all_goals simp [hf]
        · intro hf hrev
          have hvn : ¬(kc.uutig_frag ≠ none ∧ kc.uutig_frag ≠ some tok) := by
            rw [hf]
            intro hcc
            exact hcc.2 rfl
          unfold get_next_step
          rw [gnsAux]
          split
          · rename_i heq
            rw [hkc] at heq
            exact absurd heq (by simp)
          · rename_i kc2 heq
            rw [hkc] at heq
            have hk2 : kc2 = kc := by cases heq; rfl
            subst hk2
            rw [dif_neg hXn, dif_neg hFn]
            simp only
            rw [dif_neg (by simpa [hlb, hrb] using hnconf), dif_neg hvn, dif_pos ⟨hf, hrev⟩]

end MHM2

namespace MHM2

theorem c2_witness :
    (getLocalKmerCounts ([] : KmerMap) (fun _ => 0) 0 [Base.A] = none) ∧
    (get_next_step (fun _ => 0) 0 Dirn.RIGHT ⟨0, 7⟩ [Base.A] none Base.A true false
        ([] : KmerMap)).1.walk_status = WalkStatus.DEADEND :=
  ⟨by decide,
   (c2_get_next_step_classification (fun _ => 0) 0 Dirn.RIGHT ⟨0, 7⟩ [Base.A] none Base.A
      true false []).1 (by decide)⟩

/-- C3: every traversal walk terminates (`traverse_dirn` and the step
primitive are defined by well-founded recursion on the number of unclaimed
k-mers, each RUNNING step claiming a previously unclaimed one), and the
terminal status is one of the five expected states DEADEND, FORK, CONFLICT,
REPEAT, VISITED — never RUNNING or an error; in particular on the k=4 cycle
of read ACGTACGTACGT the walk ends with REPEAT, with a uutig no longer than
the cycle length. -/
theorem c3_walk_terminates_in_expected_state (tr : Kmer → Nat) (m : KmerMap)
    (kmer : Kmer) (tok : GPtr) (dirn : Dirn) :
    (traverse_dirn tr m kmer tok dirn).status ∈
      [WalkStatus.DEADEND, WalkStatus.FORK, WalkStatus.CONFLICT,
       WalkStatus.REPEAT, WalkStatus.VISITED] ∧
    (traverse_dirn (fun _ => 0) cycleMap [Base.C, Base.G, Base.T, Base.A] ⟨0, 7⟩
        Dirn.RIGHT).status = WalkStatus.REPEAT ∧
    (traverse_dirn (fun _ => 0) cycleMap [Base.C, Base.G, Base.T, Base.A] ⟨0, 7⟩
        Dirn.RIGHT).uutig.length ≤ 4 := by
  refine ⟨?_, c3_cycle_eval.1, ?_⟩
  · apply walkstatus_ne_running_mem
    unfold traverse_dirn
    apply traverseDirnLoop_not_running
  · rw [c3_cycle_eval.2]
    decide

end MHM2

namespace MHM2

theorem digitChar_isDigit {n : Nat} (h : n < 10) : isDigitChar (digitChar n) = true := by
  interval_cases n <;> decide

theorem digitChar_val {n : Nat} (h : n < 10) : (digitChar n).toNat - 48 = n := by
  interval_cases n <;> decide

theorem natToDigitsCore_digits (n : Nat) : ∀ ch ∈ natToDigitsCore n, isDigitChar ch = true := by
  induction n using natToDigitsCore.induct with
  | case1 n h =>
    rw [natToDigitsCore, if_pos h]
    intro ch hch
    simp at hch
    subst hch
    exact digitChar_isDigit h
  | case2 n h ih =>
    rw [natToDigitsCore, if_neg h]
    intro ch hch
    rcases List.mem_append.mp hch with h2 | h2
    · exact ih ch h2
    · simp at h2
      subst h2
      exact digitChar_isDigit (Nat.mod_lt _ (by omega))

theorem natToDigitsCore_ne_nil (n : Nat) : natToDigitsCore n ≠ [] := by
  rw [natToDigitsCore]
  split
  · simp
  · simp

theorem parseDigits_stop (l : List Char) (acc : Nat) (h : l.head?.any isDigitChar = false) :
    parseDigits l acc = (acc, l) := by
  cases l with
  | nil => rfl
  | cons c rest =>
    simp at h
    rw [parseDigits, if_neg (by simp [h])]

theorem parseDigits_append (n : Nat) :
    ∀ (rest : List Char) (acc : Nat),
      parseDigits (natToDigitsCore n ++ rest) acc =
        parseDigits rest (acc * 10 ^ (natToDigitsCore n).length + n) := by
  induction n using natToDigitsCore.induct with
  | case1 n h =>
    intro rest acc
    rw [natToDigitsCore, if_pos h]
    simp only [List.cons_append, List.nil_append, List.length_cons, List.length_nil]
    rw [parseDigits, if_pos (digitChar_isDigit h)]
    rw [digitChar_val h]
    norm_num
  | case2 n h ih =>
    intro rest acc
    rw [natToDigitsCore, if_neg h]
    rw [List.append_assoc, ih]
    simp only [List.cons_append, List.nil_append]
    rw [parseDigits, if_pos (digitChar_isDigit (Nat.mod_lt _ (by omega)))]
    rw [digitChar_val (Nat.mod_lt _ (by omega))]
    have h2 : (acc * 10 ^ (natToDigitsCore (n / 10)).length + n / 10) * 10 + n % 10 =
        acc * (10 ^ (natToDigitsCore (n / 10)).length * 10) + (n / 10 * 10 + n % 10) := by
      ring
    rw [h2, ← pow_succ]
    rw [show n / 10 * 10 + n % 10 = n by omega]
    have h3 : (natToDigitsCore (n / 10) ++ [digitChar (n % 10)]).length =
        (natToDigitsCore (n / 10)).length + 1 := by
      simp
    rw [h3]

end MHM2

namespace MHM2

theorem natToDigitsCore_length_le (d : Nat) :
    ∀ n : Nat, 1 ≤ d → n < 10 ^ d → (natToDigitsCore n).length ≤ d := by
  induction d with
  | zero => intro n h; omega
  | succ d ih =>
    intro n _ hn
    rw [natToDigitsCore]
    split
    · simp
    · rename_i h10
      have hd1 : 1 ≤ d := by
        by_contra hc
        have : d = 0 := by omega
        subst this
        simp at hn
        omega
      have : n / 10 < 10 ^ d := by
        rw [pow_succ] at hn
        omega
      have := ih (n / 10) hd1 this
      simp [List.length_append]
      omega

theorem parseDigits_zeros (z : Nat) :
    ∀ (l : List Char), parseDigits (List.replicate z '0' ++ l) 0 = parseDigits l 0 := by
  induction z with
  | zero => intro l; rfl
  | succ z ih =>
    intro l
    rw [List.replicate_succ, List.cons_append, parseDigits, if_pos (by decide)]
    simpa using ih l

theorem isDigitChar_not_space {c : Char} (hd : isDigitChar c = true) : isCSpace c = false := by
  by_contra hcon
  have h2 : isCSpace c = true := by simpa using hcon
  simp only [isCSpace, Bool.or_eq_true, decide_eq_true_eq] at h2
  rcases h2 with ((((h | h) | h) | h) | h) | h <;> (subst h; exact absurd hd (by decide))

theorem isDigitChar_ne_minus {c : Char} (hd : isDigitChar c = true) : c ≠ '-' := by
  intro h; subst h; exact absurd hd (by decide)

theorem isDigitChar_ne_plus {c : Char} (hd : isDigitChar c = true) : c ≠ '+' := by
  intro h; subst h; exact absurd hd (by decide)

theorem strtolE_of_digit_head (c : Char) (cs : List Char) (hd : isDigitChar c = true) :
    strtolE (c :: cs) =
      (((parseDigits (c :: cs) 0).1 : Int), (parseDigits (c :: cs) 0).2) := by
  rw [strtolE]
  simp only [List.dropWhile_cons, isDigitChar_not_space hd, Bool.false_eq_true, if_false]
  split
  · rename_i t r heq
    injection heq with h1 h2
    exact absurd h1 (isDigitChar_ne_minus hd)
  · rename_i t r heq
    injection heq with h1 h2
    exact absurd h1 (isDigitChar_ne_plus hd)
  · rw [if_pos (by simp [hd])]

theorem strtolE_intToString (i : Int) (rest : List Char)
    (hrest : rest.head?.any isDigitChar = false) :
    strtolE (intToString i ++ rest) = (i, rest) := by
  have hparse : parseDigits (natToDigitsCore i.natAbs ++ rest) 0 = (i.natAbs, rest) := by
    rw [parseDigits_append, parseDigits_stop _ _ hrest]
    simp
  rw [intToString]
  split
  · rename_i hneg
    rw [List.cons_append, strtolE]
    simp only [List.dropWhile_cons, show isCSpace '-' = false from by decide,
      Bool.false_eq_true, if_false]
    cases hc : natToDigitsCore i.natAbs with
    | nil => exact absurd hc (natToDigitsCore_ne_nil _)
    | cons c cs =>
      have hd : isDigitChar c = true := natToDigitsCore_digits _ c (by rw [hc]; simp)
      rw [hc] at hparse
      simp only [List.cons_append] at hparse
      simp only [List.cons_append]
      simp [hd, hparse]
      rw [abs_of_nonpos (by omega : i ≤ 0)]
      omega
  · rename_i hpos
    cases hc : natToDigitsCore i.natAbs with
    | nil => exact absurd hc (natToDigitsCore_ne_nil _)
    | cons c cs =>
      have hd : isDigitChar c = true := natToDigitsCore_digits _ c (by rw [hc]; simp)
      rw [hc] at hparse
      simp only [List.cons_append] at hparse ⊢
      rw [strtolE_of_digit_head c _ hd, hparse]
      have hlink : ((i.natAbs : Int)) = i := Int.natAbs_of_nonneg (by omega)
      simp [hlink]


theorem isDigitChar_ne_gt {c : Char} (hd : isDigitChar c = true) : c ≠ '>' := by
  intro h; subst h; exact absurd hd (by decide)

theorem isDigitChar_ne_newline {c : Char} (hd : isDigitChar c = true) : c ≠ '\n' := by
  intro h; subst h; exact absurd hd (by decide)

theorem dropWhile_space_digit (c : Char) (cs : List Char) (hd : isDigitChar c = true) :
    (c :: cs).dropWhile isCSpace = c :: cs := by
  rw [List.dropWhile_cons, isDigitChar_not_space hd]
  simp

theorem parseDigits_printDepth (q : ℚ) :
    ∀ rest : List Char, parseDigits (printDepth q ++ rest) 0 =
      ((q * 1000000 + 1 / 2).floor.toNat / 1000000,
        '.' :: (pad6 ((q * 1000000 + 1 / 2).floor.toNat % 1000000) ++ rest)) := by
  intro rest
  rw [printDepth]
  rw [List.append_assoc, parseDigits_append]
  simp only [List.cons_append]
  rw [parseDigits_stop _ _ (by simp only [List.head?_cons, Option.any_some]; decide), Nat.zero_mul, Nat.zero_add]

theorem parseDigits_pad6 (k : Nat) (hk : k < 1000000) :
    parseDigits (pad6 k) 0 = (k, []) := by
  rw [pad6, parseDigits_zeros, ← List.append_nil (natToDigitsCore k), parseDigits_append]
  simp [parseDigits]

theorem pad6_length (k : Nat) (hk : k < 1000000) : (pad6 k).length = 6 := by
  have hle : (natToDigitsCore k).length ≤ 6 :=
    natToDigitsCore_length_le 6 k (by omega) (by norm_num; omega)
  rw [pad6]
  simp [List.length_append, List.length_replicate]
  omega

theorem strtod_printDepth (q : ℚ) (h : 0 ≤ q) :
    strtod (' ' :: printDepth q) = round6 q := by
  have hfl : 0 ≤ (q * 1000000 + 1 / 2).floor := by
    rw [show (0 : Int) = ((0 : Int)) from rfl]
    exact Rat.le_floor.mpr (by push_cast; nlinarith)
  have hcast : (((q * 1000000 + 1 / 2).floor.toNat : Int)) = (q * 1000000 + 1 / 2).floor :=
    Int.toNat_of_nonneg hfl
  obtain ⟨c, cs, hc⟩ : ∃ c cs, natToDigitsCore ((q * 1000000 + 1 / 2).floor.toNat / 1000000) = c :: cs := by
    cases hx : natToDigitsCore ((q * 1000000 + 1 / 2).floor.toNat / 1000000) with
    | nil => exact absurd hx (natToDigitsCore_ne_nil _)
    | cons a as => exact ⟨a, as, rfl⟩
  have hd : isDigitChar c = true := natToDigitsCore_digits _ c (by rw [hc]; simp)
  have hpd : printDepth q = c :: (cs ++ '.' :: pad6 ((q * 1000000 + 1 / 2).floor.toNat % 1000000)) := by
    rw [printDepth, hc]
    simp
  rw [strtod]
  simp only [hpd, List.dropWhile_cons, show isCSpace ' ' = true from rfl, if_true,
    isDigitChar_not_space hd, Bool.false_eq_true, if_false]
  have hpddig := parseDigits_printDepth q []
  rw [List.append_nil, hpd] at hpddig
  split
  · rename_i t r heq
    injection heq with h1 h2
    exact absurd h1 (isDigitChar_ne_minus hd)
  · rename_i t r heq
    injection heq with h1 h2
    exact absurd h1 (isDigitChar_ne_plus hd)
  · simp only [hpddig, List.append_nil]
    rw [parseDigits_pad6 _ (Nat.mod_lt _ (by omega))]
    rw [pad6_length _ (Nat.mod_lt _ (by omega))]
    simp only [List.length_nil, Nat.sub_zero]
    rw [round6]
    rw [← hcast]
    push_cast
    have hsplit : ((q * 1000000 + 1 / 2).floor.toNat : ℚ) =
        ((q * 1000000 + 1 / 2).floor.toNat / 1000000 : Nat) * 1000000 +
          ((q * 1000000 + 1 / 2).floor.toNat % 1000000 : Nat) := by
      push_cast
      rw [show (((q * 1000000 + 1 / 2).floor.toNat / 1000000 : Nat) : ℚ) * 1000000 +
            (((q * 1000000 + 1 / 2).floor.toNat % 1000000 : Nat) : ℚ) =
          ((((q * 1000000 + 1 / 2).floor.toNat / 1000000 * 1000000 +
            (q * 1000000 + 1 / 2).floor.toNat % 1000000 : Nat)) : ℚ) by push_cast; ring]
      norm_cast
      omega
    rw [hsplit]
    push_cast
    ring_nf
    simp only [Int.toNat_natCast]

theorem parseRecord_headerOf (c : Contig) (h : 0 ≤ c.depth) :
    parseRecord (headerOf c) c.seq = { id := c.id, seq := c.seq, depth := round6 c.depth } := by
  have hdrop : (headerOf c).drop 7 = intToString c.id ++ ' ' :: printDepth c.depth := by
    rw [headerOf, List.append_assoc, show (7 : Nat) = (">Contig".toList).length from rfl,
      List.drop_left]
  rw [parseRecord, hdrop,
    strtolE_intToString _ _ (by simp only [List.head?_cons, Option.any_some]; decide)]
  simp [strtod_printDepth _ h]

theorem intToString_chars (i : Int) :
    ∀ ch ∈ intToString i, ch = '-' ∨ isDigitChar ch = true := by
  intro ch hch
  rw [intToString] at hch
  split at hch
  · rcases List.mem_cons.mp hch with h2 | h2
    · exact Or.inl h2
    · exact Or.inr (natToDigitsCore_digits _ ch h2)
  · exact Or.inr (natToDigitsCore_digits _ ch hch)

theorem printDepth_chars (q : ℚ) :
    ∀ ch ∈ printDepth q, ch = '.' ∨ isDigitChar ch = true := by
  intro ch hch
  rw [printDepth] at hch
  rcases List.mem_append.mp hch with h2 | h2
  · exact Or.inr (natToDigitsCore_digits _ ch h2)
  · rcases List.mem_cons.mp h2 with h3 | h3
    · exact Or.inl h3
    · rw [pad6] at h3
      rcases List.mem_append.mp h3 with h4 | h4
      · exact Or.inr (by rw [List.eq_of_mem_replicate h4]; decide)
      · exact Or.inr (natToDigitsCore_digits _ ch h4)

theorem headerOf_no_newline (c : Contig) : ∀ ch ∈ headerOf c, ch ≠ '\n' := by
  intro ch hch
  rw [headerOf] at hch
  rcases List.mem_append.mp hch with h2 | h2
  · rcases List.mem_append.mp h2 with h3 | h3
    · exact (show ∀ x ∈ ">Contig".toList, x ≠ '\n' by decide) ch h3
    · rcases intToString_chars _ ch h3 with h4 | h4
      · rw [h4]; decide
      · exact isDigitChar_ne_newline h4
  · rcases List.mem_cons.mp h2 with h3 | h3
    · rw [h3]; decide
    · rcases printDepth_chars _ ch h3 with h4 | h4
      · rw [h4]; decide
      · exact isDigitChar_ne_newline h4

theorem headerOf_tail_no_gt (c : Contig) : ∀ ch ∈ (headerOf c).drop 1, ch ≠ '>' := by
  intro ch hch
  rw [headerOf] at hch
  rw [show (">Contig".toList ++ intToString c.id ++ ' ' :: printDepth c.depth).drop 1 =
      "Contig".toList ++ intToString c.id ++ ' ' :: printDepth c.depth from rfl] at hch
  rcases List.mem_append.mp hch with h2 | h2
  · rcases List.mem_append.mp h2 with h3 | h3
    · exact (show ∀ x ∈ "Contig".toList, x ≠ '>' by decide) ch h3
    · rcases intToString_chars _ ch h3 with h4 | h4
      · rw [h4]; decide
      · exact isDigitChar_ne_gt h4
  · rcases List.mem_cons.mp h2 with h3 | h3
    · rw [h3]; decide
    · rcases printDepth_chars _ ch h3 with h4 | h4
      · rw [h4]; decide
      · exact isDigitChar_ne_gt h4

theorem seq_chars_ne (c : Contig) (hc : ctgWF c) :
    ∀ ch ∈ c.seq, ch ≠ '\n' ∧ ch ≠ '>' := by
  intro ch hch
  have := hc.2.1 ch hch
  fin_cases this <;> exact ⟨by decide, by decide⟩

theorem takeWhile_no_newline (l : List Char) (h : ∀ ch ∈ l, ch ≠ '\n') :
    ∀ rest : List Char, (l ++ '\n' :: rest).takeWhile (· ≠ '\n') = l := by
  induction l with
  | nil => intro rest; simp [List.takeWhile_cons]
  | cons x xs ih =>
    intro rest
    rw [List.cons_append, List.takeWhile_cons,
      if_pos (by simp [h x (List.mem_cons_self x xs)])]
    rw [ih (fun ch hch => h ch (List.mem_cons_of_mem x hch)) rest]

theorem dropWhile_no_newline (l : List Char) (h : ∀ ch ∈ l, ch ≠ '\n') :
    ∀ rest : List Char, (l ++ '\n' :: rest).dropWhile (· ≠ '\n') = '\n' :: rest := by
  induction l with
  | nil => intro rest; simp [List.dropWhile_cons]
  | cons x xs ih =>
    intro rest
    rw [List.cons_append, List.dropWhile_cons,
      if_pos (by simp [h x (List.mem_cons_self x xs)])]
    exact ih (fun ch hch => h ch (List.mem_cons_of_mem x hch)) rest

theorem gline_line (l rest : List Char) (h : ∀ ch ∈ l, ch ≠ '\n') :
    gline (l ++ '\n' :: rest) = (l, rest) := by
  rw [gline, takeWhile_no_newline l h rest, dropWhile_no_newline l h rest]
  simp

theorem take7_ne_contig_tag (l : List Char) (h : ∀ ch ∈ l, ch ≠ '>') :
    (l.take 7 = ">Contig".toList) = False := by
  simp only [eq_iff_iff, iff_false]
  intro heq
  cases l with
  | nil => simp at heq
  | cons x xs =>
    rw [show (x :: xs).take 7 = x :: xs.take 6 from rfl] at heq
    have : x = '>' := by
      have := congrArg List.head? heq
      simpa using this
    exact absurd this (h x (List.mem_cons_self x xs))

theorem serializeContigs_cons (c : Contig) (ds : List Contig) :
    serializeContigs (c :: ds) = recordOf c ++ serializeContigs ds := by
  rw [serializeContigs, serializeContigs, List.map_cons, List.flatten_cons]

theorem serializeContigs_append (a b : List Contig) :
    serializeContigs (a ++ b) = serializeContigs a ++ serializeContigs b := by
  rw [serializeContigs, serializeContigs, serializeContigs, List.map_append, List.flatten_append]

theorem recordOf_append (c : Contig) (X : List Char) :
    recordOf c ++ X = headerOf c ++ '\n' :: (c.seq ++ '\n' :: X) := by
  rw [recordOf]
  simp

theorem recordOf_length (c : Contig) :
    (recordOf c).length = (headerOf c).length + c.seq.length + 2 := by
  rw [recordOf]
  simp
  omega

theorem headerOf_cons (c : Contig) :
    headerOf c = '>' :: ("Contig".toList ++ (intToString c.id ++ ' ' :: printDepth c.depth)) := by
  rw [headerOf]
  rfl

theorem headerOf_ne_nil (c : Contig) : headerOf c ≠ [] := by
  rw [headerOf_cons]
  simp

theorem readRecords_stop (suffix : List Char) (stopRem : Nat) (h : suffix.length ≤ stopRem) :
    readRecords suffix stopRem = [] := by
  rw [readRecords]
  rw [if_pos h]

theorem readRecords_serialize (suffix : List Char) :
    ∀ ds : List Contig, (∀ c ∈ ds, ctgWF c) →
      readRecords (serializeContigs ds ++ suffix) suffix.length =
        ds.map (fun c => { id := c.id, seq := c.seq, depth := round6 c.depth }) := by
  intro ds
  induction ds with
  | nil =>
    intro _
    rw [show serializeContigs [] = [] from rfl, List.nil_append, List.map_nil]
    exact readRecords_stop suffix suffix.length (Nat.le_refl _)
  | cons c ds2 ih =>
    intro hwf
    have hc : ctgWF c := hwf c (List.mem_cons_self c ds2)
    have hrw : serializeContigs (c :: ds2) ++ suffix =
        headerOf c ++ '\n' :: (c.seq ++ '\n' :: (serializeContigs ds2 ++ suffix)) := by
      rw [serializeContigs_cons, List.append_assoc, recordOf_append]
    have hg1 : gline (serializeContigs (c :: ds2) ++ suffix) =
        (headerOf c, c.seq ++ '\n' :: (serializeContigs ds2 ++ suffix)) := by
      rw [hrw]
      exact gline_line _ _ (headerOf_no_newline c)
    have hg2 : gline (c.seq ++ '\n' :: (serializeContigs ds2 ++ suffix)) =
        (c.seq, serializeContigs ds2 ++ suffix) :=
      gline_line _ _ (fun ch hch => (seq_chars_ne c hc ch hch).1)
    have hlen : ¬ ((serializeContigs (c :: ds2) ++ suffix).length ≤ suffix.length) := by
      rw [hrw]
      simp
      omega
    rw [readRecords, if_neg hlen]
    split
    · rename_i heq
      simp only [hg1] at heq
      exact absurd heq (headerOf_ne_nil c)
    · rename_i head tail heq
      split
      · rename_i heq2
        simp only [hg1, hg2] at heq2
        exact absurd heq2 hc.1
      · rename_i sq sh stl heq2
        simp only [hg1, hg2] at heq2 ⊢
        rw [← heq2, parseRecord_headerOf c hc.2.2,
          ih (fun d hd => hwf d (List.mem_cons_of_mem c hd)), List.map_cons]

theorem advanceToRecord_nil : advanceToRecord [] = [] := by
  rw [advanceToRecord.eq_def]

theorem advance_skip_line (l X : List Char) (hgt : ∀ ch ∈ l, ch ≠ '>')
    (hnl : ∀ ch ∈ l, ch ≠ '\n') :
    advanceToRecord (l ++ '\n' :: X) = advanceToRecord X := by
  rw [advanceToRecord.eq_def]
  split
  · rename_i heq
    simp at heq
  · rename_i x xs heq
    rw [← heq, gline_line l X hnl, if_neg (of_eq_false (take7_ne_contig_tag l hgt))]

theorem advance_serialize : ∀ ds : List Contig, (∀ c ∈ ds, ctgWF c) →
    advanceToRecord (serializeContigs ds) = serializeContigs (ds.drop 1) := by
  intro ds hwf
  cases ds with
  | nil => exact advanceToRecord_nil
  | cons c ds2 =>
    have hc : ctgWF c := hwf c (List.mem_cons_self c ds2)
    have hrw : serializeContigs (c :: ds2) =
        headerOf c ++ '\n' :: (c.seq ++ '\n' :: serializeContigs ds2) := by
      rw [serializeContigs_cons, recordOf_append]
    have hg1 : gline (serializeContigs (c :: ds2)) =
        (headerOf c, c.seq ++ '\n' :: serializeContigs ds2) := by
      rw [hrw]
      exact gline_line _ _ (headerOf_no_newline c)
    have hg2 : gline (c.seq ++ '\n' :: serializeContigs ds2) =
        (c.seq, serializeContigs ds2) :=
      gline_line _ _ (fun ch hch => (seq_chars_ne c hc ch hch).1)
    have htake : (headerOf c).take 7 = ">Contig".toList := by
      rw [headerOf, List.append_assoc, show (7 : Nat) = (">Contig".toList).length from rfl,
        List.take_left]
    rw [advanceToRecord.eq_def]
    split
    · rename_i heq
      rw [hrw] at heq
      simp at heq
    · rename_i x xs heq
      rw [← heq]
      simp only [hg1, hg2, htake, if_pos]
      rfl

theorem advance_mid (c : Contig) (ds2 : List Contig) (q : Nat) (hc : ctgWF c)
    (hwf2 : ∀ d ∈ ds2, ctgWF d) (h1 : 1 ≤ q) (h2 : q ≤ (recordOf c).length) :
    advanceToRecord ((recordOf c ++ serializeContigs ds2).drop q) =
      serializeContigs (ds2.drop 1) := by
  have hrl := recordOf_length c
  have hfull : recordOf c ++ serializeContigs ds2 =
      headerOf c ++ '\n' :: (c.seq ++ '\n' :: serializeContigs ds2) := recordOf_append c _
  have hseqgt : ∀ ch ∈ c.seq, ch ≠ '>' := fun ch hch => (seq_chars_ne c hc ch hch).2
  have hseqnl : ∀ ch ∈ c.seq, ch ≠ '\n' := fun ch hch => (seq_chars_ne c hc ch hch).1
  by_cases hA : q ≤ (headerOf c).length
  · have hdropped : (recordOf c ++ serializeContigs ds2).drop q =
        (headerOf c).drop q ++ '\n' :: (c.seq ++ '\n' :: serializeContigs ds2) := by
      rw [hfull, List.drop_append_of_le_length hA]
    rw [hdropped]
    rw [advance_skip_line _ _
      (fun ch hch => headerOf_tail_no_gt c ch (by
        have hq : (headerOf c).drop q = ((headerOf c).drop 1).drop (q - 1) := by
          rw [List.drop_drop, show 1 + (q - 1) = q by omega]
        rw [hq] at hch
        exact List.mem_of_mem_drop hch))
      (fun ch hch => headerOf_no_newline c ch (List.mem_of_mem_drop hch))]
    rw [advance_skip_line _ _ hseqgt hseqnl]
    exact advance_serialize ds2 hwf2
  · by_cases hB : q ≤ (headerOf c).length + 1 + c.seq.length
    · have hlen1 : (headerOf c ++ ['\n']).length = (headerOf c).length + 1 := by simp
      have hdropped : (recordOf c ++ serializeContigs ds2).drop q =
          c.seq.drop (q - ((headerOf c).length + 1)) ++ '\n' :: serializeContigs ds2 := by
        rw [hfull, show headerOf c ++ '\n' :: (c.seq ++ '\n' :: serializeContigs ds2) =
            (headerOf c ++ ['\n']) ++ (c.seq ++ '\n' :: serializeContigs ds2) by simp]
        conv_lhs => rw [show q = (headerOf c ++ ['\n']).length + (q - ((headerOf c).length + 1)) by
          rw [hlen1]; omega]
        rw [List.drop_append, List.drop_append_of_le_length (by omega)]
      rw [hdropped]
      rw [advance_skip_line _ _
        (fun ch hch => hseqgt ch (List.mem_of_mem_drop hch))
        (fun ch hch => hseqnl ch (List.mem_of_mem_drop hch))]
      exact advance_serialize ds2 hwf2
    · have hq : q = (recordOf c).length := by omega
      have hdropped : (recordOf c ++ serializeContigs ds2).drop q = serializeContigs ds2 := by
        rw [hq, List.drop_left]
      rw [hdropped]
      exact advance_serialize ds2 hwf2

theorem advance_splitIdx : ∀ ds : List Contig, (∀ c ∈ ds, ctgWF c) → ∀ q : Nat,
    advanceToRecord ((serializeContigs ds).drop q) =
      serializeContigs (ds.drop (splitIdx ds q)) := by
  intro ds
  induction ds with
  | nil =>
    intro _ q
    simp [advanceToRecord_nil, splitIdx, serializeContigs]
  | cons c ds2 ih =>
    intro hwf q
    have hwf2 : ∀ d ∈ ds2, ctgWF d := fun d hd => hwf d (List.mem_cons_of_mem c hd)
    rw [splitIdx]
    by_cases hle : q ≤ (recordOf c).length
    · rw [if_pos hle]
      by_cases h0 : q = 0
      · rw [if_pos h0, h0, List.drop_zero]
        exact advance_serialize (c :: ds2) hwf
      · rw [if_neg h0]
        rw [serializeContigs_cons, List.drop_append_of_le_length hle] at *
        rw [show ((recordOf c).drop q ++ serializeContigs ds2) =
            (recordOf c ++ serializeContigs ds2).drop q by
          rw [List.drop_append_of_le_length hle]]
        rw [advance_mid c ds2 q (hwf c (List.mem_cons_self c ds2)) hwf2 (by omega) hle]
        rfl
    · rw [if_neg hle]
      have hsplit2 : (serializeContigs (c :: ds2)).drop q =
          (serializeContigs ds2).drop (q - (recordOf c).length) := by
        rw [serializeContigs_cons]
        conv_lhs => rw [show q = (recordOf c).length + (q - (recordOf c).length) by omega]
        rw [List.drop_append]
      rw [hsplit2, ih hwf2 (q - (recordOf c).length)]
      rw [show (c :: ds2).drop (1 + splitIdx ds2 (q - (recordOf c).length)) =
          ds2.drop (splitIdx ds2 (q - (recordOf c).length)) by
        rw [Nat.add_comm, List.drop_succ_cons]]

theorem splitIdx_pos : ∀ (ds : List Contig) (q : Nat), 1 ≤ q →
    q ≤ (serializeContigs ds).length → 1 ≤ splitIdx ds q := by
  intro ds q h1 h2
  cases ds with
  | nil => simp [serializeContigs] at h2; omega
  | cons c ds2 =>
    rw [splitIdx]
    split
    · split <;> omega
    · omega

theorem splitIdx_mono : ∀ (ds : List Contig) (q q2 : Nat), q ≤ q2 →
    q2 ≤ (serializeContigs ds).length → splitIdx ds q ≤ splitIdx ds q2 := by
  intro ds
  induction ds with
  | nil => intro q q2 _ _; simp [splitIdx]
  | cons c ds2 ih =>
    intro q q2 hqq h2
    have hlen : (serializeContigs (c :: ds2)).length =
        (recordOf c).length + (serializeContigs ds2).length := by
      rw [serializeContigs_cons, List.length_append]
    rw [splitIdx, splitIdx]
    by_cases hq2le : q2 ≤ (recordOf c).length
    · rw [if_pos hq2le, if_pos (by omega)]
      by_cases h0 : q = 0
      · rw [if_pos h0]
        split <;> omega
      · rw [if_neg h0, if_neg (by omega)]
    · rw [if_neg hq2le]
      have hpos2 : 1 ≤ splitIdx ds2 (q2 - (recordOf c).length) :=
        splitIdx_pos ds2 _ (by omega) (by omega)
      by_cases hqle : q ≤ (recordOf c).length
      · rw [if_pos hqle]
        split <;> omega
      · rw [if_neg hqle]
        have := ih (q - (recordOf c).length) (q2 - (recordOf c).length) (by omega) (by omega)
        omega

theorem drop_length_sub {α : Type} (a b : List α) :
    (a ++ b).drop ((a ++ b).length - b.length) = b := by
  rw [List.length_append, show a.length + b.length - b.length = a.length by omega, List.drop_left]

theorem drop_min_length {α : Type} (es : List α) (j : Nat) :
    es.drop j = es.drop (min j es.length) := by
  rcases le_or_lt j es.length with h | h
  · rw [min_eq_left h]
  · rw [min_eq_right (by omega), List.drop_eq_nil_of_le (by omega),
      List.drop_eq_nil_of_le (le_refl _)]

theorem take_seg_min {α : Type} (es : List α) (j k : Nat) (hjk : j ≤ k) :
    (es.drop j).take (k - j) =
      (es.drop (min j es.length)).take (min k es.length - min j es.length) := by
  rcases le_or_lt k es.length with hk | hk
  · rw [min_eq_left hk, min_eq_left (by omega)]
  · rcases le_or_lt j es.length with hj | hj
    · rw [min_eq_left hj, min_eq_right (by omega)]
      have h1 : (es.drop j).take (k - j) = es.drop j :=
        List.take_of_length_le (by rw [List.length_drop]; omega)
      have h2 : (es.drop j).take (es.length - j) = es.drop j :=
        List.take_of_length_le (le_of_eq (List.length_drop j es))
      rw [h1, h2]
    · rw [min_eq_right (by omega), min_eq_right (by omega)]
      rw [List.drop_eq_nil_of_le (by omega), List.drop_eq_nil_of_le (le_refl _)]
      simp

theorem slices_take {α : Type} (es : List α) :
    ∀ (n : Nat) (f : Nat → Nat), f 0 = 0 → (∀ r, r < n → f r ≤ f (r + 1)) →
      (List.range n).flatMap (fun r => (es.drop (f r)).take (f (r + 1) - f r)) =
        es.take (f n) := by
  intro n
  induction n with
  | zero =>
    intro f h0 _
    simp [h0]
  | succ m ih =>
    intro f h0 hmono
    rw [List.range_succ, List.flatMap_append]
    rw [ih f h0 (fun r hr => hmono r (by omega))]
    simp only [List.flatMap_cons, List.flatMap_nil, List.append_nil]
    rw [← List.take_add]
    rw [show f m + (f (m + 1) - f m) = f (m + 1) by have := hmono m (by omega); omega]

theorem serialize_split (ds : List Contig) (j : Nat) :
    serializeContigs ds = serializeContigs (ds.take j) ++ serializeContigs (ds.drop j) := by
  rw [← serializeContigs_append, List.take_append_drop]

theorem serialize_drop_suffix (ds : List Contig) (j : Nat) :
    (serializeContigs ds).drop
        ((serializeContigs ds).length - (serializeContigs (ds.drop j)).length) =
      serializeContigs (ds.drop j) := by
  conv_lhs => rw [serialize_split ds j]
  exact drop_length_sub _ _

theorem serialize_drop_length_le (ds : List Contig) (j : Nat) :
    (serializeContigs (ds.drop j)).length ≤ (serializeContigs ds).length := by
  conv_rhs => rw [serialize_split ds j]
  rw [List.length_append]
  omega

theorem loadStart_eq (ds : List Contig) (n r : Nat) (hwfds : ∀ c ∈ ds, ctgWF c)
    (h1 : 1 ≤ r) :
    loadStart (serializeContigs ds) n r =
      (serializeContigs ds).length -
        (serializeContigs (ds.drop (rankIdx ds n r))).length := by
  rw [loadStart, if_neg (by omega), advance_splitIdx ds hwfds, rankIdx, if_neg (by omega)]

theorem rankRem (ds : List Contig) (n : Nat) (hwfds : ∀ c ∈ ds, ctgWF c) (r : Nat) :
    (serializeContigs ds).drop (loadStart (serializeContigs ds) n r) =
      serializeContigs (ds.drop (rankIdx ds n r)) := by
  by_cases h0 : r = 0
  · subst h0
    rw [loadStart, if_pos rfl, List.drop_zero, rankIdx, if_pos rfl, List.drop_zero]
  · rw [loadStart_eq ds n r hwfds (by omega), serialize_drop_suffix]

theorem rankStop_last (ds : List Contig) (n : Nat) :
    (serializeContigs ds).length - loadStop (serializeContigs ds) n (n - 1) = 0 := by
  rw [loadStop, if_pos rfl]
  omega

theorem rankStop_eq (ds : List Contig) (n r : Nat) (hwfds : ∀ c ∈ ds, ctgWF c)
    (hr : r < n - 1) :
    (serializeContigs ds).length - loadStop (serializeContigs ds) n r =
      (serializeContigs (ds.drop (rankIdx ds n (r + 1)))).length := by
  rw [loadStop, if_neg (by omega), loadStart_eq ds n (r + 1) hwfds (by omega)]
  have := serialize_drop_length_le ds (rankIdx ds n (r + 1))
  omega

theorem rankIdx_mono (ds : List Contig) (n r : Nat) (hr : r + 1 ≤ n) :
    rankIdx ds n r ≤ rankIdx ds n (r + 1) := by
  by_cases h0 : r = 0
  · subst h0
    rw [rankIdx, if_pos rfl]
    exact Nat.zero_le _
  · rw [rankIdx, if_neg h0, rankIdx, if_neg (by omega)]
    refine splitIdx_mono ds _ _ ?_ ?_
    · exact Nat.mul_le_mul (Nat.le_refl _) (by omega)
    · exact le_trans (Nat.mul_le_mul (Nat.le_refl _) hr) (Nat.div_mul_le_self _ _)

theorem rankValue (ds : List Contig) (n : Nat) (hn : 1 ≤ n)
    (hwfds : ∀ c ∈ ds, ctgWF c) (r : Nat) (hr : r < n) :
    readRecords ((serializeContigs ds).drop (loadStart (serializeContigs ds) n r))
        ((serializeContigs ds).length - loadStop (serializeContigs ds) n r) =
      ((ds.map (fun c => { id := c.id, seq := c.seq, depth := round6 c.depth })).drop
          (rankCut ds n r)).take (rankCut ds n (r + 1) - rankCut ds n r) := by
  have hlenmap : (ds.map (fun c =>
      ({ id := c.id, seq := c.seq, depth := round6 c.depth } : Contig))).length =
      ds.length := by simp
  have hwfdrop : ∀ j : Nat, ∀ d ∈ ds.drop j, ctgWF d :=
    fun j d hd => hwfds d (List.mem_of_mem_drop hd)
  rw [rankRem ds n hwfds r]
  by_cases hlast : r = n - 1
  · rw [hlast, rankStop_last ds n]
    have hrr := readRecords_serialize [] (ds.drop (rankIdx ds n (n - 1))) (hwfdrop _)
    rw [List.append_nil] at hrr
    rw [show List.length ([] : List Char) = 0 from rfl] at hrr
    rw [hrr]
    rw [show (n - 1) + 1 = n by omega]
    rw [rankCut, if_pos rfl, rankCut, if_neg (by omega)]
    rw [List.map_drop, drop_min_length _ (rankIdx ds n (n - 1)), hlenmap]
    exact (List.take_of_length_le (by rw [List.length_drop, hlenmap])).symm
  · rw [rankStop_eq ds n r hwfds (by omega)]
    have hjj : rankIdx ds n r ≤ rankIdx ds n (r + 1) := rankIdx_mono ds n r (by omega)
    have hdecomp : ds.drop (rankIdx ds n r) =
        (ds.drop (rankIdx ds n r)).take (rankIdx ds n (r + 1) - rankIdx ds n r) ++
          ds.drop (rankIdx ds n (r + 1)) := by
      conv_lhs => rw [← List.take_append_drop (rankIdx ds n (r + 1) - rankIdx ds n r)
        (ds.drop (rankIdx ds n r))]
      rw [List.drop_drop,
        show rankIdx ds n r + (rankIdx ds n (r + 1) - rankIdx ds n r) =
          rankIdx ds n (r + 1) by omega]
    conv_lhs => rw [hdecomp]
    rw [serializeContigs_append]
    rw [readRecords_serialize _ _ (fun d hd => hwfdrop _ d (List.mem_of_mem_take hd))]
    rw [List.map_take, List.map_drop]
    rw [take_seg_min _ _ _ hjj, hlenmap]
    rw [show rankCut ds n r = min (rankIdx ds n r) ds.length by
      rw [rankCut, if_neg (show ¬ (r = n) by omega)]]
    rw [show rankCut ds n (r + 1) = min (rankIdx ds n (r + 1)) ds.length by
      rw [rankCut, if_neg (show ¬ (r + 1 = n) by omega)]]

theorem load_serialize (ds : List Contig) (n : Nat) (hn : 1 ≤ n)
    (hwfds : ∀ c ∈ ds, ctgWF c) :
    load_contigs (serializeContigs ds) n =
      ds.map (fun c => { id := c.id, seq := c.seq, depth := round6 c.depth }) := by
  have hlenmap : (ds.map (fun c =>
      ({ id := c.id, seq := c.seq, depth := round6 c.depth } : Contig))).length =
      ds.length := by simp
  have h1 : (List.range n).flatMap (fun r =>
      readRecords ((serializeContigs ds).drop (loadStart (serializeContigs ds) n r))
        ((serializeContigs ds).length - loadStop (serializeContigs ds) n r)) =
      (List.range n).flatMap (fun r =>
        ((ds.map (fun c => { id := c.id, seq := c.seq, depth := round6 c.depth })).drop
            (rankCut ds n r)).take (rankCut ds n (r + 1) - rankCut ds n r)) :=
    List.flatMap_congr (fun r hr => rankValue ds n hn hwfds r (List.mem_range.mp hr))
  rw [load_contigs, h1]
  rw [slices_take _ n (rankCut ds n)
    (by rw [rankCut, if_neg (by omega), rankIdx, if_pos rfl]; simp)
    (fun r hrn => by
      by_cases hr1 : r + 1 = n
      · rw [rankCut, if_neg (by omega), hr1, rankCut, if_pos rfl]
        exact min_le_right _ _
      · rw [rankCut, if_neg (by omega), rankCut, if_neg hr1]
        exact min_le_min (rankIdx_mono ds n r (by omega)) (le_refl _))]
  rw [rankCut, if_pos rfl, ← hlenmap]
  exact List.take_length _

/-- C4: dumping a contig collection with `dump_contigs` (each record a
`>Contig<id> <depth>` header line followed by the sequence line, records
shorter than the minimum length skipped) and loading the dumped file back
with `load_contigs` over any number of ranks yields exactly the dumped
records, each read by exactly one rank: ids and sequences are preserved
verbatim and each depth to the six-decimal precision of the FASTA header. -/
theorem c4_dump_load_round_trip (cs : List Contig) (minLen n : Nat) (hn : 1 ≤ n)
    (hwf : ∀ c ∈ cs, ctgWF c) :
    load_contigs (dump_contigs cs minLen) n =
      (cs.filter (fun c => decide (minLen ≤ c.seq.length))).map
        (fun c => { id := c.id, seq := c.seq, depth := round6 c.depth }) := by
  rw [dump_contigs]
  exact load_serialize _ n hn (fun c hc => hwf c (List.mem_of_mem_filter hc))

theorem c4_witness :
    (1 ≤ 2 ∧ ∀ c ∈ [({ id := 3, seq := ['A', 'C', 'G'], depth := 5 / 4 } : Contig),
        { id := 0, seq := ['T'], depth := 0 }], ctgWF c) ∧
      load_contigs (dump_contigs [({ id := 3, seq := ['A', 'C', 'G'], depth := 5 / 4 } : Contig),
          { id := 0, seq := ['T'], depth := 0 }] 2) 2 =
        ([({ id := 3, seq := ['A', 'C', 'G'], depth := 5 / 4 } : Contig),
          { id := 0, seq := ['T'], depth := 0 }].filter
            (fun c => decide (2 ≤ c.seq.length))).map
          (fun c => { id := c.id, seq := c.seq, depth := round6 c.depth }) :=
  ⟨⟨by norm_num, by
      intro c hc
      fin_cases hc <;> exact ⟨by decide, by decide, by norm_num⟩⟩,
    c4_dump_load_round_trip
      [{ id := 3, seq := ['A', 'C', 'G'], depth := 5 / 4 },
        { id := 0, seq := ['T'], depth := 0 }] 2 2 (by norm_num)
      (by
        intro c hc
        fin_cases hc <;> exact ⟨by decide, by decide, by norm_num⟩)⟩

end MHM2
